import Mathlib

/-!
# Dependency-graph verifier of `analyze/check.go`

A shallow embedding of `checkTarget`, `findPath`, `checkTargets` and
`checkUnusedDeps`, followed by the properties established about them.

Conventions of the embedding

* `*String` (an interned string) is a natural number; the code only ever
  compares such pointers and uses them as map keys, so pointer identity is
  equality of numbers.
* a non-nil `*Target` is a natural number (an address); a nullable one is an
  `Option`.  The target objects live in `Graph.heap`.
* a Go map that the code ranges over is the list of its entries in the order
  in which the range statement enumerates them; a lookup returns the first
  entry with the key.  A set (`map[K]struct{}`) is the list of its keys.
-/

set_option autoImplicit false

namespace Analyze

/-- Modelled from the spec: the interned `*String` type (its declaration is
outside `check.go`); identifiers are compared by identity only. -/
abbrev StringPtr := Nat

/-- A non-nil `*Target`. -/
abbrev TargetPtr := Nat

/-- The two findings of `check.go`: `undeclaredDep{Target, Read}` and
`unusedDep{Target, Dep}`. -/
inductive Error where
  | undeclaredDep (Target : StringPtr) (Read : StringPtr)
  | unusedDep (Target : StringPtr) (Dep : StringPtr)
  deriving DecidableEq

/-- Modelled from the spec: the `edge` struct, an ordered pair (consumer,
provider) of nullable target pointers, equal when both components are. -/
structure edge where
  src : Option TargetPtr
  dst : Option TargetPtr
  deriving DecidableEq

/-- Modelled from the spec: the `Target` struct (declared outside `check.go`),
with the fields `check.go` uses. -/
structure Target where
  Name : StringPtr
  Reads : List StringPtr
  Deps : List StringPtr
  Errors : List Error

/-- Modelled from the spec: the `Graph` struct (declared outside `check.go`),
with the fields `check.go` uses, and the heap of target objects. -/
structure Graph where
  heap : TargetPtr → Target
  TargetByName : List (StringPtr × TargetPtr)
  TargetByWrite : List (StringPtr × TargetPtr)
  UsedEdges : List edge
  Errors : List Error

/-- The result type `checkTargetResult`. -/
structure checkTargetResult where
  errors : List Error
  edges : List edge

/-! ## Go maps as entry lists -/

/-- Map lookup `m[k]`: the value of the first entry with key `k`; `none` is
the zero value `nil` of an absent key. -/
def mapGet {β : Type} : List (Nat × β) → Nat → Option β
  | [], _ => none
  | (k', v) :: m, k => if k' = k then some v else mapGet m k

/-- Map assignment `m[k] = v`: overwrite the entry of `k`, or add one. -/
def mapSet {β : Type} : List (Nat × β) → Nat → β → List (Nat × β)
  | [], k, v => [(k, v)]
  | (k', v') :: m, k, v => if k' = k then (k, v) :: m else (k', v') :: mapSet m k v

/-- Set insertion `s[x] = yes`. -/
def setAdd {α : Type} [DecidableEq α] (s : List α) (x : α) : List α :=
  if x ∈ s then s else s ++ [x]

/-- The assignment `target.Errors = append(target.Errors, e)`. -/
def Graph.appendError (g : Graph) (target : TargetPtr) (e : Error) : Graph :=
  { g with heap := fun p =>
      if p = target then { g.heap p with Errors := (g.heap p).Errors ++ [e] } else g.heap p }

/-! ## `findPath` -/

/-- The loop `nextDep` of `findPath` over the declared dependencies `deps`
still to be enumerated; `call dep` is the recursive call
`g.findPath(append(partial, dep), needle)`.  The outer `none` is a call that
did not return. -/
def nextDep (g : Graph) (call : TargetPtr → Option (Option (List TargetPtr)))
    (part : List TargetPtr) : List StringPtr → Option (Option (List TargetPtr))
  | [] => some none
  | d :: ds =>
    match mapGet g.TargetByName d with
    | none => nextDep g call part ds
    | some dep =>
      if dep ∈ part then nextDep g call part ds
      else
        match call dep with
        | none => none
        | some (some try_) => some (some try_)
        | some none => nextDep g call part ds

/-- The function `findPath(partial, needle)` with a bound on the recursion
depth.  The outer `none` means that the call did not return a value: the
depth bound was reached, or `partial` is empty and `partial[len(partial)-1]`
is out of range.  `some none` is the result `nil`. -/
def findPathFuel (g : Graph) : Nat → List TargetPtr → TargetPtr → Option (Option (List TargetPtr))
  | 0, _, _ => none
  | fuel + 1, part, needle =>
    match part.getLast? with
    | none => none
    | some target =>
      if target = needle then some (some part)
      else nextDep g (fun dep => findPathFuel g fuel (part ++ [dep]) needle) part
        (g.heap target).Deps

/-- The function `findPath(partial, needle)` on a non-empty `partial`:
`none` is `nil`.  The depth bound is one more than the number of entries of
`TargetByName`; `findPath_eq` shows that it is never reached, so that the
second case below does not occur.  (On an empty `partial` the Go function
panics; `checkTarget` always passes `[]*Target{target}`.) -/
def findPath (g : Graph) (part : List TargetPtr) (needle : TargetPtr) : Option (List TargetPtr) :=
  match findPathFuel g (g.TargetByName.length + 1) part needle with
  | some r => r
  | none => none

/-! ## `checkTarget` -/

/-- First loop of `checkTarget`: the map `realDeps` from producing target to
the read kept for it. -/
def realDepsOf (g : Graph) (reads : List StringPtr) : List (TargetPtr × StringPtr) :=
  reads.foldl (fun realDeps r =>
    match mapGet g.TargetByWrite r with
    | some t => mapSet realDeps t r
    | none => realDeps) []

/-- Body of the second loop of `checkTarget`, on the pair
(`result.edges`, `usedDeps`). -/
def directStep (g : Graph) (target : TargetPtr) (st : List edge × List TargetPtr)
    (entry : TargetPtr × StringPtr) : List edge × List TargetPtr :=
  let dep := entry.1
  let name := entry.2
  let st1 : List edge × List TargetPtr :=
    if name ∈ (g.heap target).Deps then
      (setAdd st.1 ⟨some target, some dep⟩, setAdd st.2 dep)
    else st
  if (g.heap dep).Name ∈ (g.heap target).Deps then (st1.1, setAdd st1.2 dep) else st1

/-- The edges `(path[i-1], path[i])` for `i = 1 .. len(path)-1`, added to a set. -/
def addPathEdges : List edge → List TargetPtr → List edge
  | edges, a :: b :: rest => addPathEdges (setAdd edges ⟨some a, some b⟩) (b :: rest)
  | edges, _ => edges

/-- Body of the last loop of `checkTarget`, on the pair (`result`, graph).
`realDeps` is the map after the deletions; `d` is one of its keys, so the
lookup `realDeps[d]` finds the read kept for `d`. -/
def transitiveStep (target : TargetPtr) (realDeps : List (TargetPtr × StringPtr))
    (st : checkTargetResult × Graph) (entry : TargetPtr × StringPtr) :
    checkTargetResult × Graph :=
  let result := st.1
  let g := st.2
  let d := entry.1
  match findPath g [target] d with
  | some path => ({ result with edges := addPathEdges result.edges path }, g)
  | none =>
    match mapGet realDeps d with
    | some read =>
      let e := Error.undeclaredDep (g.heap target).Name read
      ({ result with errors := result.errors ++ [e] }, g.appendError target e)
    | none => (result, g)

/-- The function `checkTarget`: the returned result and the graph after the
call (only `target.Errors` is assigned). -/
def checkTarget (g : Graph) (target : TargetPtr) : checkTargetResult × Graph :=
  let realDeps := realDepsOf g (g.heap target).Reads
  let direct := realDeps.foldl (directStep g target) ([], [])
  let realDeps1 := realDeps.filter (fun entry => decide (entry.1 ∉ direct.2))
  realDeps1.foldl (transitiveStep target realDeps1) (⟨[], direct.1⟩, g)

/-! ## `checkUnusedDeps` and `checkTargets` -/

/-- The function `checkUnusedDeps`. -/
def checkUnusedDeps (g : Graph) (target : TargetPtr) : Graph :=
  (g.heap target).Deps.foldl (fun g dep =>
    let depTarget := mapGet g.TargetByName dep
    if (edge.mk (some target) depTarget) ∈ g.UsedEdges then g
    else g.appendError target (Error.unusedDep (g.heap target).Name dep)) g

/-- Phase 1 of `checkTargets`: one `checkTarget` per entry of
`TargetByName`, and the results in the order in which they are sent.  The
goroutines are run one after the other: each assigns only the `Errors` of its
own target and reads nothing that another one assigns. -/
def runTargets (g : Graph) : List checkTargetResult × Graph :=
  g.TargetByName.foldl (fun st entry =>
    let r := checkTarget st.2 entry.2
    (st.1 ++ [r.1], r.2)) ([], g)

/-- Body of the receiving loop of `checkTargets`. -/
def mergeResult (g : Graph) (r : checkTargetResult) : Graph :=
  { g with UsedEdges := r.edges.foldl setAdd g.UsedEdges, Errors := g.Errors ++ r.errors }

/-- The function `checkTargets`. -/
def checkTargets (g : Graph) : Graph :=
  let phase1 := runTargets g
  let merged := phase1.1.foldl mergeResult phase1.2
  g.TargetByName.foldl (fun g entry => checkUnusedDeps g entry.2) merged

/-! ## Declared reachability and well-formed graphs -/

/-- A declared edge: some identifier of `a.Deps` resolves, through
`TargetByName`, to `b`. -/
def DeclEdge (g : Graph) (a b : TargetPtr) : Prop :=
  ∃ d ∈ (g.heap a).Deps, mapGet g.TargetByName d = some b

/-- A sequence of targets `a = t0, t1, ..., tk = b` (possibly `k = 0`) in
which each step is a declared edge. -/
def Reach (g : Graph) (a b : TargetPtr) : Prop :=
  Relation.ReflTransGen (DeclEdge g) a b

/-- The targets registered in `TargetByName` that are not on the path. -/
def unvisited (g : Graph) (part : List TargetPtr) : List TargetPtr :=
  (g.TargetByName.map Prod.snd).filter (fun t => decide (t ∉ part))

/-- The recursive calls of `findPath`: `Calls g needle part part1` holds when
the body of `findPath(part, needle)` can reach the call
`findPath(append(part, dep), needle)` with `part1 = append(part, dep)`: the
last target of `part` is not the needle, `dep` is the target some `d` of its
`Deps` resolves to, and `dep` is not on `part`. -/
inductive Calls (g : Graph) (needle : TargetPtr) : List TargetPtr → List TargetPtr → Prop where
  | step (part : List TargetPtr) (target : TargetPtr) (d : StringPtr) (dep : TargetPtr) :
      part.getLast? = some target → target ≠ needle → d ∈ (g.heap target).Deps →
      mapGet g.TargetByName d = some dep → dep ∉ part → Calls g needle part (part ++ [dep])

/-- A well-formed graph: the keys of each map are distinct, the sets `Deps`
and `Reads` of the registered targets have distinct elements,
`TargetByName[n].Name = n`, and every value of `TargetByWrite` is a target
of `TargetByName`. -/
def WellFormed (g : Graph) : Prop :=
  (g.TargetByName.map Prod.fst).Nodup ∧ (g.TargetByWrite.map Prod.fst).Nodup ∧
  (∀ en ∈ g.TargetByName, (g.heap en.2).Name = en.1 ∧ (g.heap en.2).Deps.Nodup ∧
    (g.heap en.2).Reads.Nodup) ∧
  (∀ en ∈ g.TargetByWrite, en.2 ∈ g.TargetByName.map Prod.snd)

instance (g : Graph) : Decidable (WellFormed g) := by
  unfold WellFormed
  infer_instance

/-! ## Concrete graphs -/

/-- A target object with no findings yet. -/
def mkTarget (name : StringPtr) (reads deps : List StringPtr) : Target :=
  ⟨name, reads, deps, []⟩

/-- Graph with targets `A` (address 1, name 11) and `B` (address 2, name 12);
`B` wrote file 20, `A` reads it and declares `B` by name. -/
def graphByName : Graph where
  heap := fun p => if p = 1 then mkTarget 11 [20] [12] else mkTarget 12 [] []
  TargetByName := [(11, 1), (12, 2)]
  TargetByWrite := [(20, 2)]
  UsedEdges := []
  Errors := []

/-- Graph with targets `A` (address 1, name 11), `B` (address 2, name 12) and
`C` (address 3, name 13); `C` wrote file 20; `A` reads it and declares only
`B`, `B` declares only `C`. -/
def graphChain : Graph where
  heap := fun p =>
    if p = 1 then mkTarget 11 [20] [12]
    else if p = 2 then mkTarget 12 [] [13]
    else mkTarget 13 [] []
  TargetByName := [(11, 1), (12, 2), (13, 3)]
  TargetByWrite := [(20, 3)]
  UsedEdges := []
  Errors := []

/-- Graph with targets `A` (address 1, name 11) and `B` (address 2, name 12)
that declare each other; neither reads anything. -/
def graphCycle : Graph where
  heap := fun p => if p = 1 then mkTarget 11 [] [12] else mkTarget 12 [] [11]
  TargetByName := [(11, 1), (12, 2)]
  TargetByWrite := []
  UsedEdges := []
  Errors := []

/-- Graph with one target `A` (address 1, name 11) that declares the
identifier 30, which names no target; `A` reads nothing. -/
def graphFileDep : Graph where
  heap := fun _ => mkTarget 11 [] [30]
  TargetByName := [(11, 1)]
  TargetByWrite := []
  UsedEdges := []
  Errors := []

/-- Graph with targets `A` (address 1, name 11) and `E` (address 2, name 12);
`A` declares `E` and reads nothing. -/
def graphUnused : Graph where
  heap := fun p => if p = 1 then mkTarget 11 [] [12] else mkTarget 12 [] []
  TargetByName := [(11, 1), (12, 2)]
  TargetByWrite := []
  UsedEdges := []
  Errors := []

/-- Graph with targets `A` (address 1, name 11) and `D` (address 2, name 12);
`D` wrote file 20, `A` reads it and declares nothing. -/
def graphUndeclared : Graph where
  heap := fun p => if p = 1 then mkTarget 11 [20] [] else mkTarget 12 [] []
  TargetByName := [(11, 1), (12, 2)]
  TargetByWrite := [(20, 2)]
  UsedEdges := []
  Errors := []

/-! ## Closed forms used in the proofs -/

/-- The graph `g` after `target.Errors = append(target.Errors, es...)`. -/
def Graph.appendErrors (g : Graph) (target : TargetPtr) (es : List Error) : Graph :=
  { g with heap := fun p =>
      if p = target then { g.heap p with Errors := (g.heap p).Errors ++ es } else g.heap p }

/-- The findings that the last loop of `checkTarget` emits over the entries
`l`, with the lookups `realDeps[d]` made in `rd`. -/
def undeclaredOf (g : Graph) (target : TargetPtr) (rd l : List (TargetPtr × StringPtr)) :
    List Error :=
  l.filterMap (fun entry =>
    match findPath g [target] entry.1 with
    | some _ => none
    | none => (mapGet rd entry.1).map (Error.undeclaredDep (g.heap target).Name))

/-- The edge set that the last loop of `checkTarget` builds over the entries
`l`, starting from `edges`. -/
def creditedOf (g : Graph) (target : TargetPtr) (edges : List edge)
    (l : List (TargetPtr × StringPtr)) : List edge :=
  l.foldl (fun edges entry =>
    match findPath g [target] entry.1 with
    | some path => addPathEdges edges path
    | none => edges) edges

/-- The entries of `realDeps` left after the directly used ones are deleted. -/
def remainingDeps (g : Graph) (target : TargetPtr) : List (TargetPtr × StringPtr) :=
  (realDepsOf g (g.heap target).Reads).filter (fun entry =>
    decide (entry.1 ∉ ((realDepsOf g (g.heap target).Reads).foldl
      (directStep g target) ([], [])).2))

/-- The edges credited by the second loop of `checkTarget`. -/
def directEdges (g : Graph) (target : TargetPtr) : List edge :=
  ((realDepsOf g (g.heap target).Reads).foldl (directStep g target) ([], [])).1

/-- The graph `g` with new contents for everything the verifier assigns:
the `Errors` field of every target, `UsedEdges` and the graph-level
`Errors`. -/
def Graph.dyn (g : Graph) (E : TargetPtr → List Error) (U : List edge) (Es : List Error) :
    Graph where
  heap := fun p => { g.heap p with Errors := E p }
  TargetByName := g.TargetByName
  TargetByWrite := g.TargetByWrite
  UsedEdges := U
  Errors := Es

/-- The findings of `checkUnusedDeps(target)` when the used edges are `U`. -/
def unusedOf (g : Graph) (U : List edge) (target : TargetPtr) (deps : List StringPtr) :
    List Error :=
  deps.filterMap (fun dep =>
    if edge.mk (some target) (mapGet g.TargetByName dep) ∈ U then none
    else some (Error.unusedDep (g.heap target).Name dep))

/-- The `Errors` fields after the calls of `checkTarget` for the entries `l`
of `TargetByName`, starting from the fields `E`. -/
def runErrors (g : Graph) :
    List (StringPtr × TargetPtr) → (TargetPtr → List Error) → TargetPtr → List Error
  | [], E => E
  | en :: l, E =>
    runErrors g l (fun p => if p = en.2 then E p ++ (checkTarget g en.2).1.errors else E p)

/-- The `Errors` fields after the calls of `checkUnusedDeps` for the entries
`l` of `TargetByName`, starting from the fields `E`. -/
def unusedErrors (g : Graph) (U : List edge) :
    List (StringPtr × TargetPtr) → (TargetPtr → List Error) → TargetPtr → List Error
  | [], E => E
  | en :: l, E =>
    unusedErrors g U l
      (fun p => if p = en.2 then E p ++ unusedOf g U en.2 (g.heap en.2).Deps else E p)

/-- The results that phase 1 of `checkTargets` sends. -/
def phase1Results (g : Graph) : List checkTargetResult :=
  g.TargetByName.map (fun en => (checkTarget g en.2).1)

/-- The set `UsedEdges` after the results `rs` are merged into `U`. -/
def mergedEdges (U : List edge) (rs : List checkTargetResult) : List edge :=
  rs.foldl (fun U r => r.edges.foldl setAdd U) U

/-- The list `g.Errors` after the results `rs` are merged into `Es`. -/
def mergedErrors (Es : List Error) (rs : List checkTargetResult) : List Error :=
  rs.foldl (fun Es r => Es ++ r.errors) Es

/-- The graph `g` in which the set `target.Reads` is `reads`. -/
def Graph.withReads (g : Graph) (target : TargetPtr) (reads : List StringPtr) : Graph :=
  { g with heap := fun p =>
      { g.heap p with Reads := if p = target then reads else (g.heap p).Reads } }

/-- Graph with targets `A` (address 1, name 11) and `B` (address 2, name 12);
`B` wrote file 20; `A` reads the files 20 and 40, of which 40 has no entry in
`TargetByWrite`, and declares the file 20. -/
def graphRawInput : Graph where
  heap := fun p => if p = 1 then mkTarget 11 [40, 20] [20] else mkTarget 12 [] []
  TargetByName := [(11, 1), (12, 2)]
  TargetByWrite := [(20, 2)]
  UsedEdges := []
  Errors := []

/-- An edge whose source and destination are non-nil and are targets held
as values of `g.TargetByName`. -/
def GoodEdge (g : Graph) (e : edge) : Prop :=
  ∃ a b : TargetPtr, e = ⟨some a, some b⟩ ∧ a ∈ g.TargetByName.map Prod.snd ∧
    b ∈ g.TargetByName.map Prod.snd

/-- Graph with one target `T` (address 1, name 11) that wrote file 20, reads
it and declares that file. -/
def graphSelf : Graph where
  heap := fun _ => mkTarget 11 [20] [20]
  TargetByName := [(11, 1)]
  TargetByWrite := [(20, 1)]
  UsedEdges := []
  Errors := []

/-- The graph `g` in which the set `target.Deps` is enumerated as `deps`. -/
def Graph.withDeps (g : Graph) (target : TargetPtr) (deps : List StringPtr) : Graph :=
  { g with heap := fun p =>
      { g.heap p with Deps := if p = target then deps else (g.heap p).Deps } }

/-- The graph `g` in which the map `TargetByName` is enumerated as `names`. -/
def Graph.withNames (g : Graph) (names : List (StringPtr × TargetPtr)) : Graph :=
  { g with TargetByName := names }

/-- Graph with targets `A` (address 1, name 11) and `B` (address 2, name 12);
`B` wrote the files 20 and 21; `A` reads both, enumerated as 20, 21, and
declares the file 20. -/
def graphTwoReads : Graph where
  heap := fun p => if p = 1 then mkTarget 11 [20, 21] [20] else mkTarget 12 [] []
  TargetByName := [(11, 1), (12, 2)]
  TargetByWrite := [(20, 2), (21, 2)]
  UsedEdges := []
  Errors := []

/-- Graph with targets `A` (address 1, name 11), `B` (2, name 12), `C` (3,
name 13) and `D` (4, name 14); `D` wrote file 20, which `A` reads; `A`
declares `B` and `C`, enumerated in this order, and `B` and `C` both
declare `D`. -/
def graphDiamond : Graph where
  heap := fun p =>
    if p = 1 then mkTarget 11 [20] [12, 13]
    else if p = 2 then mkTarget 12 [] [14]
    else if p = 3 then mkTarget 13 [] [14]
    else mkTarget 14 [] []
  TargetByName := [(11, 1), (12, 2), (13, 3), (14, 4)]
  TargetByWrite := [(20, 4)]
  UsedEdges := []
  Errors := []

end Analyze

/-! # `SavingCopy` of `termite/diskcache.go` -/

namespace Termite

/-- The values of `os.Error` that `SavingCopy` tells apart: `os.EOF` and any
other error (`nil` is `none` of `Option OsError`). -/
inductive OsError where
  | EOF
  | other (code : Nat)
  deriving DecidableEq

/-- An `io.Reader`, as a parameter of `SavingCopy`: one call `r.Read(buf)`
on the reader state, given `len(buf)`; it returns the bytes it stored in
`buf[0:n]`, the error, and the next state. -/
abbrev ReadFn (R : Type) := R → Nat → (List Nat × Option OsError) × R

/-- An `io.Writer`, as a parameter of `SavingCopy`: one call `w.Write(todo)`
on the writer state; it returns `n`, the error, and the next state. -/
abbrev WriteFn (W : Type) := W → List Nat → (Nat × Option OsError) × W

/-- What a call of `SavingCopy` leaves: the returned `[]byte` (`none` is
`nil`), the returned error, and the states of the reader and the writer. -/
structure CopyOutcome (R W : Type) where
  content : Option (List Nat)
  err : Option OsError
  reader : R
  writer : W

/-- The inner loop `for len(todo) > 0` of `SavingCopy`, from the values of
`todo`, `n` and `err` before it to their values after it.  `none` is a loop
that did not end within `fuel` iterations, or the slice `todo[n:]` out of
range. -/
def writeLoop {W : Type} (write : WriteFn W) :
    Nat → W → List Nat → Nat → Option OsError → Option (List Nat × Nat × Option OsError × W)
  | 0, _, _, _, _ => none
  | fuel + 1, w, todo, n, err =>
    if 0 < todo.length then
      match write w todo with
      | ((n1, err1), w1) =>
        if err1 ≠ none then some (todo, n1, err1, w1)
        else if todo.length < n1 then none
        else writeLoop write fuel w1 (todo.drop n1) n1 err1
    else some (todo, n, err, w)

/-- The statements after the outer loop of `SavingCopy`. -/
def finish {R W : Type} (r : R) (w : W) (buf : List Nat) (total : Nat) : CopyOutcome R W :=
  if total < buf.length then ⟨some (buf.take total), none, r, w⟩ else ⟨none, none, r, w⟩

/-- The outer loop of `SavingCopy` with the statements after it, from the
values of `buf` and `total` before an iteration.  `none` is a call that did
not return within `fuel` iterations, or a slice out of range. -/
def copyLoop {R W : Type} (read : ReadFn R) (write : WriteFn W) :
    Nat → R → W → List Nat → Nat → Option (CopyOutcome R W)
  | 0, _, _, _, _ => none
  | fuel + 1, r, w, buf, total =>
    match read r buf.length with
    | ((data, err), r1) =>
      if buf.length < data.length then none
      else
        let n := data.length
        let buf1 := data ++ buf.drop n
        let todo := buf1.take n
        let total1 := total + n
        match writeLoop write fuel w todo n err with
        | none => none
        | some (todo2, n2, err2, w2) =>
          if 0 < todo2.length then some ⟨none, err2, r1, w2⟩
          else if err2 = some OsError.EOF ∨ n2 = 0 then some (finish r1 w2 buf1 total1)
          else if err2 ≠ none then some ⟨none, err2, r1, w2⟩
          else copyLoop read write fuel r1 w2 buf1 total1

/-- The function `SavingCopy(w, r, bufSize)`, with a bound on the number of
loop iterations. -/
def SavingCopy {R W : Type} (fuel : Nat) (read : ReadFn R) (write : WriteFn W)
    (w : W) (r : R) (bufSize : Nat) : Option (CopyOutcome R W) :=
  copyLoop read write fuel r w (List.replicate bufSize 0) 0

/-- A reader that delivers its data as the chunks of its state, one chunk
for each call of `Read` (the part of a chunk that does not fit in the buffer
is kept for the next call), and then `os.EOF`. -/
def chunkRead : ReadFn (List (List Nat))
  | [], _ => (([], some OsError.EOF), [])
  | c :: cs, len =>
    if c.length ≤ len then ((c, none), cs) else ((c.take len, none), c.drop len :: cs)

/-- A writer that accepts all bytes without error; its state is what has
been written. -/
def acceptAll : WriteFn (List Nat) :=
  fun w todo => ((todo.length, none), w ++ todo)

end Termite

namespace Analyze

/-! ## Lemmas on maps -/

theorem mapGet_mem {β : Type} (m : List (Nat × β)) (k : Nat) (v : β)
    (h : mapGet m k = some v) : (k, v) ∈ m := by
  induction m with
  | nil => simp [mapGet] at h
  | cons e m ih =>
    obtain ⟨k', v'⟩ := e
    by_cases hk : k' = k
    · subst hk
      simp [mapGet] at h
      simp [h]
    · simp [mapGet, hk] at h
      exact List.mem_cons_of_mem _ (ih h)

theorem mem_setAdd {α : Type} [DecidableEq α] (s : List α) (x y : α) :
    y ∈ setAdd s x ↔ y ∈ s ∨ y = x := by
  unfold setAdd
  by_cases h : x ∈ s
  · simp only [h, if_true]
    constructor
    · exact Or.inl
    · rintro (h' | rfl)
      · exact h'
      · exact h
  · simp [h]

/-! ## Lemmas on `findPath` -/

theorem nextDep_path (g : Graph) (call : TargetPtr → Option (Option (List TargetPtr)))
    (part : List TargetPtr) (ds : List StringPtr) (p : List TargetPtr)
    (h : nextDep g call part ds = some (some p)) :
    ∃ d ∈ ds, ∃ dep, mapGet g.TargetByName d = some dep ∧ dep ∉ part ∧
      call dep = some (some p) := by
  induction ds with
  | nil => simp [nextDep] at h
  | cons d ds ih =>
    unfold nextDep at h
    split at h
    · obtain ⟨d', hd', r⟩ := ih h
      exact ⟨d', List.mem_cons_of_mem _ hd', r⟩
    · rename_i dep hdep
      split at h
      · obtain ⟨d', hd', r⟩ := ih h
        exact ⟨d', List.mem_cons_of_mem _ hd', r⟩
      · rename_i hnot
        split at h
        · simp at h
        · rename_i try_ hcall
          simp only [Option.some.injEq] at h
          subst h
          exact ⟨d, List.mem_cons_self _ _, dep, hdep, hnot, hcall⟩
        · obtain ⟨d', hd', r⟩ := ih h
          exact ⟨d', List.mem_cons_of_mem _ hd', r⟩

theorem nextDep_stuck (g : Graph) (call : TargetPtr → Option (Option (List TargetPtr)))
    (part : List TargetPtr) (ds : List StringPtr)
    (h : nextDep g call part ds = none) :
    ∃ d ∈ ds, ∃ dep, mapGet g.TargetByName d = some dep ∧ dep ∉ part ∧ call dep = none := by
  induction ds with
  | nil => simp [nextDep] at h
  | cons d ds ih =>
    unfold nextDep at h
    split at h
    · obtain ⟨d', hd', r⟩ := ih h
      exact ⟨d', List.mem_cons_of_mem _ hd', r⟩
    · rename_i dep hdep
      split at h
      · obtain ⟨d', hd', r⟩ := ih h
        exact ⟨d', List.mem_cons_of_mem _ hd', r⟩
      · rename_i hnot
        split at h
        · rename_i hcall
          exact ⟨d, List.mem_cons_self _ _, dep, hdep, hnot, hcall⟩
        · simp at h
        · obtain ⟨d', hd', r⟩ := ih h
          exact ⟨d', List.mem_cons_of_mem _ hd', r⟩

theorem nextDep_finds (g : Graph) (call : TargetPtr → Option (Option (List TargetPtr)))
    (part : List TargetPtr) (ds : List StringPtr)
    (hret : ∀ d ∈ ds, ∀ dep, mapGet g.TargetByName d = some dep → dep ∉ part →
      call dep ≠ none)
    (hex : ∃ d ∈ ds, ∃ dep, mapGet g.TargetByName d = some dep ∧ dep ∉ part ∧
      ∃ p, call dep = some (some p)) :
    ∃ p, nextDep g call part ds = some (some p) := by
  induction ds with
  | nil =>
    obtain ⟨d, hd, _⟩ := hex
    simp at hd
  | cons d ds ih =>
    have hret' : ∀ d' ∈ ds, ∀ dep, mapGet g.TargetByName d' = some dep → dep ∉ part →
        call dep ≠ none := fun d' hd' => hret d' (List.mem_cons_of_mem _ hd')
    have hrest : (∃ d' ∈ ds, ∃ dep, mapGet g.TargetByName d' = some dep ∧ dep ∉ part ∧
        ∃ p, call dep = some (some p)) → ∃ p, nextDep g call part ds = some (some p) :=
      ih hret'
    obtain ⟨d0, hd0, dep0, hdep0, hnot0, p0, hp0⟩ := hex
    unfold nextDep
    rcases List.mem_cons.1 hd0 with rfl | hin
    · simp only [hdep0, hnot0, if_false, hp0]
      exact ⟨p0, rfl⟩
    · have hfound := hrest ⟨d0, hin, dep0, hdep0, hnot0, p0, hp0⟩
      split
      · exact hfound
      · rename_i dep hdep
        split
        · exact hfound
        · rename_i hnot
          have hne := hret d (List.mem_cons_self _ _) dep hdep hnot
          split
          · rename_i hcall
            exact absurd hcall hne
          · rename_i try_ _
            exact ⟨try_, rfl⟩
          · exact hfound

theorem findPathFuel_succ (g : Graph) (fuel : Nat) (part : List TargetPtr)
    (needle target : TargetPtr) (hlast : part.getLast? = some target) :
    findPathFuel g (fuel + 1) part needle =
      if target = needle then some (some part)
      else nextDep g (fun dep => findPathFuel g fuel (part ++ [dep]) needle) part
        (g.heap target).Deps := by
  simp only [findPathFuel, hlast]

/-- What a returned path looks like: it extends `part` by a chain of declared
edges that ends in `needle`, without repeating a target. -/
theorem findPathFuel_sound (g : Graph) (needle : TargetPtr) :
    ∀ (fuel : Nat) (part p : List TargetPtr) (target : TargetPtr),
      part.getLast? = some target →
      findPathFuel g fuel part needle = some (some p) →
      ∃ s, p = part ++ s ∧ p.getLast? = some needle ∧
        List.Chain (DeclEdge g) target s ∧ (part.Nodup → p.Nodup) := by
  intro fuel
  induction fuel with
  | zero => intro part p target _ h; simp [findPathFuel] at h
  | succ fuel ih =>
    intro part p target hlast h
    rw [findPathFuel_succ g fuel part needle target hlast] at h
    by_cases ht : target = needle
    · simp only [ht, if_true, Option.some.injEq] at h
      subst h
      exact ⟨[], by simp, by rw [hlast, ht], List.Chain.nil, fun hn => hn⟩
    · simp only [ht, if_false] at h
      obtain ⟨d, hd, dep, hdep, hnot, hcall⟩ := nextDep_path g _ part _ p h
      obtain ⟨s, hp, hl, hchain, hnodup⟩ :=
        ih (part ++ [dep]) p dep (List.getLast?_concat part) hcall
      refine ⟨dep :: s, by simpa using hp, hl, List.Chain.cons ⟨d, hd, hdep⟩ hchain, ?_⟩
      intro hn
      apply hnodup
      rw [List.nodup_append]
      refine ⟨hn, List.nodup_singleton dep, ?_⟩
      intro x hx hx'
      rw [List.mem_singleton] at hx'
      subst hx'
      exact hnot hx

theorem filter_length_le_of_imp {α : Type} (p q : α → Bool) (l : List α)
    (himp : ∀ x, q x = true → p x = true) :
    (l.filter q).length ≤ (l.filter p).length := by
  induction l with
  | nil => simp
  | cons v l ih =>
    cases hq : q v with
    | false =>
      cases hp : p v with
      | false => simpa [List.filter_cons, hq, hp] using ih
      | true => simp only [List.filter_cons, hq, hp, if_true, List.length_cons]
                simp only [Bool.false_eq_true, if_false]
                omega
    | true =>
      have hp := himp v hq
      simpa [List.filter_cons, hq, hp] using ih

theorem filter_length_lt_of_imp {α : Type} (p q : α → Bool) (l : List α)
    (himp : ∀ x, q x = true → p x = true) (x : α) (hx : x ∈ l)
    (hpx : p x = true) (hqx : q x = false) :
    (l.filter q).length < (l.filter p).length := by
  induction l with
  | nil => simp at hx
  | cons v l ih =>
    have hle := filter_length_le_of_imp p q l himp
    rcases List.mem_cons.1 hx with rfl | hin
    · simp only [List.filter_cons, hpx, hqx, if_true, List.length_cons]
      simp only [Bool.false_eq_true, if_false]
      omega
    · have hlt := ih hin
      cases hq : q v with
      | false =>
        cases hp : p v with
        | false => simpa [List.filter_cons, hq, hp] using hlt
        | true => simp only [List.filter_cons, hq, hp, if_true, List.length_cons]
                  simp only [Bool.false_eq_true, if_false]
                  omega
      | true =>
        have hp := himp v hq
        simpa [List.filter_cons, hq, hp] using hlt

theorem unvisited_concat_lt (g : Graph) (part : List TargetPtr) (d : StringPtr)
    (dep : TargetPtr) (hdep : mapGet g.TargetByName d = some dep) (hnot : dep ∉ part) :
    (unvisited g (part ++ [dep])).length < (unvisited g part).length := by
  have hmem : dep ∈ g.TargetByName.map Prod.snd :=
    List.mem_map.2 ⟨(d, dep), mapGet_mem _ _ _ hdep, rfl⟩
  unfold unvisited
  apply filter_length_lt_of_imp _ _ _ _ dep hmem
  · exact decide_eq_true hnot
  · exact decide_eq_false (fun h => h (by simp))
  · intro x hx
    have hx' : x ∉ part ++ [dep] := of_decide_eq_true hx
    exact decide_eq_true (fun h => hx' (List.mem_append_left _ h))

/-- A call on a non-empty path returns as soon as the depth bound exceeds
the number of registered targets that are not on the path. -/
theorem findPathFuel_returns (g : Graph) (needle : TargetPtr) :
    ∀ (fuel : Nat) (part : List TargetPtr), part ≠ [] →
      (unvisited g part).length < fuel → findPathFuel g fuel part needle ≠ none := by
  intro fuel
  induction fuel with
  | zero => intro part _ h; omega
  | succ fuel ih =>
    intro part hne hlt
    obtain ⟨target, hlast⟩ : ∃ t, part.getLast? = some t := by
      cases h : part.getLast? with
      | none => exact absurd (List.getLast?_eq_none_iff.1 h) hne
      | some t => exact ⟨t, rfl⟩
    rw [findPathFuel_succ g fuel part needle target hlast]
    by_cases ht : target = needle
    · simp [ht]
    · simp only [ht, if_false]
      intro hstuck
      obtain ⟨d, _, dep, hdep, hnot, hcall⟩ := nextDep_stuck g _ part _ hstuck
      have hlt' := unvisited_concat_lt g part d dep hdep hnot
      exact ih (part ++ [dep]) (by simp) (by omega) hcall

theorem unvisited_length_le (g : Graph) (part : List TargetPtr) :
    (unvisited g part).length ≤ g.TargetByName.length := by
  unfold unvisited
  calc (List.filter _ (g.TargetByName.map Prod.snd)).length
      ≤ (g.TargetByName.map Prod.snd).length := List.length_filter_le _ _
    _ = g.TargetByName.length := List.length_map _ _

/-- The wrapper `findPath` agrees with the bounded search: the bound it uses
is never reached on a non-empty path. -/
theorem findPath_eq (g : Graph) (part : List TargetPtr) (needle : TargetPtr)
    (hne : part ≠ []) :
    findPathFuel g (g.TargetByName.length + 1) part needle = some (findPath g part needle) := by
  have h := findPathFuel_returns g needle (g.TargetByName.length + 1) part hne
    (Nat.lt_succ_of_le (unvisited_length_le g part))
  unfold findPath
  cases hr : findPathFuel g (g.TargetByName.length + 1) part needle with
  | none => exact absurd hr h
  | some r => rfl

/-- The search succeeds along any chain of declared edges that leaves the
path and repeats no target. -/
theorem findPathFuel_complete (g : Graph) (needle : TargetPtr) :
    ∀ (s part : List TargetPtr) (fuel : Nat) (target : TargetPtr),
      part.getLast? = some target → (unvisited g part).length < fuel →
      List.Chain (DeclEdge g) target s → (target :: s).getLast? = some needle →
      s.Nodup → (∀ x ∈ s, x ∉ part) →
      ∃ p, findPathFuel g fuel part needle = some (some p) := by
  intro s
  induction s with
  | nil =>
    intro part fuel target hlast hfuel _ hend _ _
    obtain ⟨fuel, rfl⟩ : ∃ k, fuel = k + 1 := ⟨fuel - 1, by omega⟩
    rw [findPathFuel_succ g fuel part needle target hlast]
    have ht : target = needle := by simpa using hend
    exact ⟨part, by simp [ht]⟩
  | cons x s ih =>
    intro part fuel target hlast hfuel hchain hend hnodup havoid
    obtain ⟨fuel, rfl⟩ : ∃ k, fuel = k + 1 := ⟨fuel - 1, by omega⟩
    rw [findPathFuel_succ g fuel part needle target hlast]
    by_cases ht : target = needle
    · exact ⟨part, by simp [ht]⟩
    · simp only [ht, if_false]
      rw [List.chain_cons] at hchain
      obtain ⟨⟨d, hd, hdep⟩, hrest⟩ := hchain
      have hx : x ∉ part := havoid x (List.mem_cons_self _ _)
      rw [List.nodup_cons] at hnodup
      apply nextDep_finds
      · intro d' _ dep' hdep' hnot'
        have hlt := unvisited_concat_lt g part d' dep' hdep' hnot'
        exact findPathFuel_returns g needle fuel (part ++ [dep']) (by simp) (by omega)
      · refine ⟨d, hd, x, hdep, hx, ?_⟩
        have hlt := unvisited_concat_lt g part d x hdep hx
        apply ih (part ++ [x]) fuel x (List.getLast?_concat part) (by omega) hrest
        · rw [List.getLast?_cons_cons] at hend
          exact hend
        · exact hnodup.2
        · intro y hy hmem
          rcases List.mem_append.1 hmem with h | h
          · exact havoid y (List.mem_cons_of_mem _ hy) h
          · rw [List.mem_singleton] at h
            subst h
            exact hnodup.1 hy

theorem reach_of_chain (g : Graph) :
    ∀ (s : List TargetPtr) (a b : TargetPtr), List.Chain (DeclEdge g) a s →
      (a :: s).getLast? = some b → Reach g a b := by
  intro s
  induction s with
  | nil =>
    intro a b _ hend
    have : a = b := by simpa using hend
    subst this
    exact Relation.ReflTransGen.refl
  | cons x s ih =>
    intro a b hchain hend
    rw [List.chain_cons] at hchain
    rw [List.getLast?_cons_cons] at hend
    exact Relation.ReflTransGen.head hchain.1 (ih x b hchain.2 hend)

/-- Every declared connection contains one that visits no target twice. -/
theorem simple_chain_of_reach (g : Graph) (a b : TargetPtr) (h : Reach g a b) :
    ∃ s, List.Chain (DeclEdge g) a s ∧ (a :: s).getLast? = some b ∧ (a :: s).Nodup := by
  refine Relation.ReflTransGen.head_induction_on h ?_ ?_
  · exact ⟨[], List.Chain.nil, by simp, by simp⟩
  · intro a c hac _ ih
    obtain ⟨s, hchain, hend, hnodup⟩ := ih
    by_cases ha : a ∈ c :: s
    · obtain ⟨l1, l2, hsplit⟩ := List.append_of_mem ha
      refine ⟨l2, ?_, ?_, ?_⟩
      · have hc : List.Chain' (DeclEdge g) (c :: s) := hchain
        rw [hsplit] at hc
        exact hc.right_of_append
      · rw [hsplit, List.getLast?_append_of_ne_nil _ (List.cons_ne_nil a l2)] at hend
        exact hend
      · rw [hsplit] at hnodup
        exact hnodup.of_append_right
    · refine ⟨c :: s, List.Chain.cons hac hchain, ?_, List.nodup_cons.2 ⟨ha, hnodup⟩⟩
      rw [List.getLast?_cons_cons]
      exact hend

/-- The result of `findPath([target], needle)` is `nil` exactly when no
sequence of declared edges connects the two. -/
theorem findPath_none_iff (g : Graph) (target needle : TargetPtr) :
    findPath g [target] needle = none ↔ ¬ Reach g target needle := by
  have heq := findPath_eq g [target] needle (by simp)
  constructor
  · intro hnil hreach
    obtain ⟨s, hchain, hend, hnodup⟩ := simple_chain_of_reach g target needle hreach
    rw [List.nodup_cons] at hnodup
    obtain ⟨p, hp⟩ := findPathFuel_complete g needle s [target]
      (g.TargetByName.length + 1) target rfl
      (Nat.lt_succ_of_le (unvisited_length_le g [target])) hchain hend hnodup.2
      (fun x hx hmem => hnodup.1 (by rw [List.mem_singleton] at hmem; rwa [hmem] at hx))
    rw [heq, hnil] at hp
    simp at hp
  · intro hno
    cases hr : findPath g [target] needle with
    | none => rfl
    | some p =>
      rw [hr] at heq
      obtain ⟨s, _, hl, hchain, _⟩ := findPathFuel_sound g needle _ [target] p target rfl heq
      subst_vars
      exact absurd (reach_of_chain g s target needle hchain (by simpa using hl)) hno

/-! ## Lemmas on `realDeps` -/

theorem mapGet_mapSet {β : Type} (m : List (Nat × β)) (k k' : Nat) (v : β) :
    mapGet (mapSet m k v) k' = if k = k' then some v else mapGet m k' := by
  induction m with
  | nil => simp [mapSet, mapGet]
  | cons e m ih =>
    obtain ⟨k0, v0⟩ := e
    by_cases h0 : k0 = k
    · subst h0
      by_cases h1 : k0 = k'
      · simp [mapSet, mapGet, h1]
      · simp [mapSet, mapGet, h1]
    · by_cases h1 : k0 = k'
      · subst h1
        simp [mapSet, mapGet, h0, Ne.symm h0]
      · simp [mapSet, mapGet, h0, h1, ih]

theorem keys_mapSet {β : Type} (m : List (Nat × β)) (k : Nat) (v : β) :
    (mapSet m k v).map Prod.fst =
      if k ∈ m.map Prod.fst then m.map Prod.fst else m.map Prod.fst ++ [k] := by
  induction m with
  | nil => simp [mapSet]
  | cons e m ih =>
    obtain ⟨k0, v0⟩ := e
    by_cases h0 : k0 = k
    · subst h0
      simp [mapSet]
    · have h0' : ¬ k = k0 := fun h => h0 h.symm
      by_cases hk : k ∈ m.map Prod.fst
      · rw [if_pos hk] at ih
        have hk' : k ∈ ((k0, v0) :: m).map Prod.fst := by
          simp only [List.map_cons, List.mem_cons]; exact Or.inr hk
        rw [if_pos hk']
        simp only [mapSet, h0, if_false, List.map_cons, ih]
      · rw [if_neg hk] at ih
        have hk' : ¬ k ∈ ((k0, v0) :: m).map Prod.fst := by
          simp only [List.map_cons, List.mem_cons, not_or]; exact ⟨h0', hk⟩
        rw [if_neg hk']
        simp only [mapSet, h0, if_false, List.map_cons, ih, List.cons_append]

theorem nodup_keys_mapSet {β : Type} (m : List (Nat × β)) (k : Nat) (v : β)
    (h : (m.map Prod.fst).Nodup) : ((mapSet m k v).map Prod.fst).Nodup := by
  rw [keys_mapSet]
  by_cases hk : k ∈ m.map Prod.fst
  · rw [if_pos hk]; exact h
  · rw [if_neg hk]
    rw [List.nodup_append]
    refine ⟨h, List.nodup_singleton k, ?_⟩
    intro x hx hx'
    rw [List.mem_singleton] at hx'
    subst hx'
    exact hk hx

theorem mapGet_of_mem {β : Type} (m : List (Nat × β)) (k : Nat) (v : β)
    (hn : (m.map Prod.fst).Nodup) (h : (k, v) ∈ m) : mapGet m k = some v := by
  induction m with
  | nil => simp at h
  | cons e m ih =>
    obtain ⟨k0, v0⟩ := e
    simp only [List.map_cons, List.nodup_cons] at hn
    rcases List.mem_cons.1 h with heq | hin
    · simp only [Prod.mk.injEq] at heq
      simp [mapGet, heq.1, heq.2]
    · have hne : k0 ≠ k := by
        intro hk
        apply hn.1
        rw [hk]
        exact List.mem_map.2 ⟨(k, v), hin, rfl⟩
      simp only [mapGet, hne, if_false]
      exact ih hn.2 hin

/-- Invariant of the first loop of `checkTarget`, stated for the map built
so far. -/
theorem realDeps_fold (g : Graph) (reads : List StringPtr) :
    ∀ (m : List (TargetPtr × StringPtr)),
      let m' := reads.foldl (fun realDeps r =>
        match mapGet g.TargetByWrite r with
        | some t => mapSet realDeps t r
        | none => realDeps) m
      ((m.map Prod.fst).Nodup → (m'.map Prod.fst).Nodup) ∧
      (∀ t r, mapGet m' t = some r →
        mapGet m t = some r ∨ (r ∈ reads ∧ mapGet g.TargetByWrite r = some t)) ∧
      (∀ t, (mapGet m t ≠ none ∨ ∃ r ∈ reads, mapGet g.TargetByWrite r = some t) →
        mapGet m' t ≠ none) := by
  induction reads with
  | nil =>
    intro m
    refine ⟨fun h => h, fun t r h => Or.inl h, ?_⟩
    rintro t (h | ⟨r, hr, _⟩)
    · exact h
    · simp at hr
  | cons r0 reads ih =>
    intro m
    simp only [List.foldl_cons]
    cases hw : mapGet g.TargetByWrite r0 with
    | none =>
      obtain ⟨h1, h2, h3⟩ := ih m
      refine ⟨h1, ?_, ?_⟩
      · intro t r h
        rcases h2 t r h with h | ⟨h, h'⟩
        · exact Or.inl h
        · exact Or.inr ⟨List.mem_cons_of_mem _ h, h'⟩
      · rintro t (h | ⟨r, hr, hrt⟩)
        · exact h3 t (Or.inl h)
        · rcases List.mem_cons.1 hr with rfl | hin
          · rw [hw] at hrt; simp at hrt
          · exact h3 t (Or.inr ⟨r, hin, hrt⟩)
    | some t0 =>
      obtain ⟨h1, h2, h3⟩ := ih (mapSet m t0 r0)
      refine ⟨fun h => h1 (nodup_keys_mapSet m t0 r0 h), ?_, ?_⟩
      · intro t r h
        rcases h2 t r h with h | ⟨h, h'⟩
        · rw [mapGet_mapSet] at h
          by_cases ht : t0 = t
          · simp only [ht, if_true, Option.some.injEq] at h
            subst h
            exact Or.inr ⟨List.mem_cons_self _ _, by rw [hw, ht]⟩
          · simp only [ht, if_false] at h
            exact Or.inl h
        · exact Or.inr ⟨List.mem_cons_of_mem _ h, h'⟩
      · intro t h
        apply h3 t
        by_cases ht : t0 = t
        · left
          rw [mapGet_mapSet]
          simp [ht]
        · rcases h with h | ⟨r, hr, hrt⟩
          · left
            rw [mapGet_mapSet]
            simpa [ht] using h
          · rcases List.mem_cons.1 hr with rfl | hin
            · rw [hw] at hrt
              simp only [Option.some.injEq] at hrt
              exact absurd hrt ht
            · exact Or.inr ⟨r, hin, hrt⟩

theorem realDepsOf_nodup (g : Graph) (reads : List StringPtr) :
    ((realDepsOf g reads).map Prod.fst).Nodup :=
  (realDeps_fold g reads []).1 (by simp)

/-- The read kept for a producing target is one of the reads, and the target
wrote it. -/
theorem realDepsOf_get (g : Graph) (reads : List StringPtr) (t : TargetPtr) (r : StringPtr)
    (h : mapGet (realDepsOf g reads) t = some r) :
    r ∈ reads ∧ mapGet g.TargetByWrite r = some t := by
  rcases (realDeps_fold g reads []).2.1 t r h with h | h
  · simp [mapGet] at h
  · exact h

/-- Every target that wrote one of the reads has an entry in `realDeps`. -/
theorem realDepsOf_has (g : Graph) (reads : List StringPtr) (t : TargetPtr) (r : StringPtr)
    (hr : r ∈ reads) (hw : mapGet g.TargetByWrite r = some t) :
    ∃ r', mapGet (realDepsOf g reads) t = some r' := by
  have h := (realDeps_fold g reads []).2.2 t (Or.inr ⟨r, hr, hw⟩)
  cases hg : mapGet (realDepsOf g reads) t with
  | none => exact absurd hg h
  | some r' => exact ⟨r', rfl⟩

/-! ## Lemmas on the loops of `checkTarget` -/

theorem mem_directStep_edges (g : Graph) (target : TargetPtr)
    (st : List edge × List TargetPtr) (entry : TargetPtr × StringPtr) (e : edge) :
    e ∈ (directStep g target st entry).1 ↔
      e ∈ st.1 ∨ (entry.2 ∈ (g.heap target).Deps ∧ e = ⟨some target, some entry.1⟩) := by
  unfold directStep
  by_cases h1 : entry.2 ∈ (g.heap target).Deps <;>
    by_cases h2 : (g.heap entry.1).Name ∈ (g.heap target).Deps <;>
    simp [h1, h2, mem_setAdd]

theorem mem_directStep_used (g : Graph) (target : TargetPtr)
    (st : List edge × List TargetPtr) (entry : TargetPtr × StringPtr) (d : TargetPtr) :
    d ∈ (directStep g target st entry).2 ↔
      d ∈ st.2 ∨ (d = entry.1 ∧ (entry.2 ∈ (g.heap target).Deps ∨
        (g.heap entry.1).Name ∈ (g.heap target).Deps)) := by
  unfold directStep
  by_cases h1 : entry.2 ∈ (g.heap target).Deps <;>
    by_cases h2 : (g.heap entry.1).Name ∈ (g.heap target).Deps <;>
    simp [h1, h2, mem_setAdd]

theorem mem_direct_edges (g : Graph) (target : TargetPtr) (e : edge) :
    ∀ (l : List (TargetPtr × StringPtr)) (st : List edge × List TargetPtr),
      e ∈ (l.foldl (directStep g target) st).1 ↔
        e ∈ st.1 ∨ ∃ entry ∈ l, entry.2 ∈ (g.heap target).Deps ∧
          e = ⟨some target, some entry.1⟩ := by
  intro l
  induction l with
  | nil => intro st; simp
  | cons entry l ih =>
    intro st
    rw [List.foldl_cons, ih, mem_directStep_edges]
    constructor
    · rintro ((h | h) | ⟨en, hen, h⟩)
      · exact Or.inl h
      · exact Or.inr ⟨entry, List.mem_cons_self _ _, h⟩
      · exact Or.inr ⟨en, List.mem_cons_of_mem _ hen, h⟩
    · rintro (h | ⟨en, hen, h⟩)
      · exact Or.inl (Or.inl h)
      · rcases List.mem_cons.1 hen with rfl | hin
        · exact Or.inl (Or.inr h)
        · exact Or.inr ⟨en, hin, h⟩

theorem mem_direct_used (g : Graph) (target : TargetPtr) (d : TargetPtr) :
    ∀ (l : List (TargetPtr × StringPtr)) (st : List edge × List TargetPtr),
      d ∈ (l.foldl (directStep g target) st).2 ↔
        d ∈ st.2 ∨ ∃ entry ∈ l, d = entry.1 ∧ (entry.2 ∈ (g.heap target).Deps ∨
          (g.heap entry.1).Name ∈ (g.heap target).Deps) := by
  intro l
  induction l with
  | nil => intro st; simp
  | cons entry l ih =>
    intro st
    rw [List.foldl_cons, ih, mem_directStep_used]
    constructor
    · rintro ((h | h) | ⟨en, hen, h⟩)
      · exact Or.inl h
      · exact Or.inr ⟨entry, List.mem_cons_self _ _, h⟩
      · exact Or.inr ⟨en, List.mem_cons_of_mem _ hen, h⟩
    · rintro (h | ⟨en, hen, h⟩)
      · exact Or.inl (Or.inl h)
      · rcases List.mem_cons.1 hen with rfl | hin
        · exact Or.inl (Or.inr h)
        · exact Or.inr ⟨en, hin, h⟩

theorem appendErrors_nil (g : Graph) (target : TargetPtr) : g.appendErrors target [] = g := by
  unfold Graph.appendErrors
  cases g with
  | mk heap n w u e =>
    simp only [List.append_nil, Graph.mk.injEq, and_true]
    funext p
    by_cases hp : p = target <;> simp [hp]

theorem appendError_appendErrors (g : Graph) (target : TargetPtr) (es : List Error)
    (e : Error) :
    (g.appendErrors target es).appendError target e = g.appendErrors target (es ++ [e]) := by
  unfold Graph.appendErrors Graph.appendError
  simp only [Graph.mk.injEq, and_true]
  funext p
  by_cases hp : p = target <;> simp [hp]

/-- The search reads only `Deps` and `TargetByName`. -/
theorem findPathFuel_congr (g g' : Graph) (hn : g'.TargetByName = g.TargetByName)
    (hd : ∀ p, (g'.heap p).Deps = (g.heap p).Deps) (needle : TargetPtr) :
    ∀ (fuel : Nat) (part : List TargetPtr),
      findPathFuel g' fuel part needle = findPathFuel g fuel part needle := by
  have hloop : ∀ (call call' : TargetPtr → Option (Option (List TargetPtr)))
      (part : List TargetPtr) (ds : List StringPtr), (∀ dep, call' dep = call dep) →
      nextDep g' call' part ds = nextDep g call part ds := by
    intro call call' part ds hc
    induction ds with
    | nil => rfl
    | cons d ds ih => simp only [nextDep, hn, hc, ih]
  intro fuel
  induction fuel with
  | zero => intro part; rfl
  | succ fuel ih =>
    intro part
    simp only [findPathFuel, hd]
    cases part.getLast? with
    | none => rfl
    | some target =>
      simp only
      rw [hloop _ _ part _ (fun dep => ih (part ++ [dep]))]

theorem findPath_appendErrors (g : Graph) (target : TargetPtr) (es : List Error)
    (part : List TargetPtr) (needle : TargetPtr) :
    findPath (g.appendErrors target es) part needle = findPath g part needle := by
  have h := findPathFuel_congr g (g.appendErrors target es) rfl
    (fun p => by unfold Graph.appendErrors; by_cases hp : p = target <;> simp [hp]) needle
  unfold findPath
  rw [h]
  rfl

theorem appendErrors_name (g : Graph) (target : TargetPtr) (es : List Error) (p : TargetPtr) :
    ((g.appendErrors target es).heap p).Name = (g.heap p).Name := by
  unfold Graph.appendErrors
  by_cases hp : p = target <;> simp [hp]

theorem transitive_fold (g : Graph) (target : TargetPtr)
    (rd : List (TargetPtr × StringPtr)) :
    ∀ (l : List (TargetPtr × StringPtr)) (res : checkTargetResult) (es0 : List Error),
      l.foldl (transitiveStep target rd) (res, g.appendErrors target es0) =
        (⟨res.errors ++ undeclaredOf g target rd l, creditedOf g target res.edges l⟩,
          g.appendErrors target (es0 ++ undeclaredOf g target rd l)) := by
  intro l
  induction l with
  | nil =>
    intro res es0
    simp [undeclaredOf, creditedOf]
  | cons entry l ih =>
    intro res es0
    rw [List.foldl_cons]
    cases hp : findPath g [target] entry.1 with
    | some path =>
      have hstep : transitiveStep target rd (res, g.appendErrors target es0) entry =
          (⟨res.errors, addPathEdges res.edges path⟩, g.appendErrors target es0) := by
        simp only [transitiveStep, findPath_appendErrors, hp]
      rw [hstep, ih]
      simp [undeclaredOf, creditedOf, hp]
    | none =>
      cases hr : mapGet rd entry.1 with
      | none =>
        have hstep : transitiveStep target rd (res, g.appendErrors target es0) entry =
            (res, g.appendErrors target es0) := by
          simp only [transitiveStep, findPath_appendErrors, hp, hr]
        rw [hstep, ih]
        simp [undeclaredOf, creditedOf, hp, hr]
      | some read =>
        have hstep : transitiveStep target rd (res, g.appendErrors target es0) entry =
            (⟨res.errors ++ [Error.undeclaredDep (g.heap target).Name read], res.edges⟩,
              g.appendErrors target
                (es0 ++ [Error.undeclaredDep (g.heap target).Name read])) := by
          simp only [transitiveStep, findPath_appendErrors, hp, hr, appendErrors_name,
            appendError_appendErrors]
        rw [hstep, ih]
        simp [undeclaredOf, creditedOf, hp, hr]

/-- The function `checkTarget` in closed form. -/
theorem checkTarget_eq (g : Graph) (target : TargetPtr) :
    checkTarget g target =
      (⟨undeclaredOf g target (remainingDeps g target) (remainingDeps g target),
        creditedOf g target (directEdges g target) (remainingDeps g target)⟩,
        g.appendErrors target
          (undeclaredOf g target (remainingDeps g target) (remainingDeps g target))) := by
  have h := transitive_fold g target (remainingDeps g target) (remainingDeps g target)
    ⟨[], directEdges g target⟩ []
  rw [appendErrors_nil] at h
  simpa [checkTarget, remainingDeps, directEdges] using h

theorem mem_realDepsOf (g : Graph) (reads : List StringPtr) (d : TargetPtr) (r : StringPtr) :
    (d, r) ∈ realDepsOf g reads ↔ mapGet (realDepsOf g reads) d = some r :=
  ⟨mapGet_of_mem _ d r (realDepsOf_nodup g reads), mapGet_mem _ d r⟩

/-- An entry stays in `realDeps` exactly when neither its read nor the name
of its producer is declared by `target`. -/
theorem mem_remainingDeps (g : Graph) (target d : TargetPtr) (r : StringPtr) :
    (d, r) ∈ remainingDeps g target ↔
      mapGet (realDepsOf g (g.heap target).Reads) d = some r ∧
        r ∉ (g.heap target).Deps ∧ (g.heap d).Name ∉ (g.heap target).Deps := by
  unfold remainingDeps
  rw [List.mem_filter, decide_eq_true_iff, mem_direct_used, mem_realDepsOf]
  constructor
  · rintro ⟨hget, hnot⟩
    refine ⟨hget, ?_, ?_⟩
    · intro hr
      exact hnot (Or.inr ⟨(d, r), (mem_realDepsOf g _ d r).2 hget, rfl, Or.inl hr⟩)
    · intro hn
      exact hnot (Or.inr ⟨(d, r), (mem_realDepsOf g _ d r).2 hget, rfl, Or.inr hn⟩)
  · rintro ⟨hget, hr, hn⟩
    refine ⟨hget, ?_⟩
    rintro (h | ⟨⟨d', r'⟩, hmem, hd, hused⟩)
    · simp at h
    · simp only at hd hused
      subst hd
      have hget' := (mem_realDepsOf g _ d r').1 hmem
      rw [hget] at hget'
      simp only [Option.some.injEq] at hget'
      subst hget'
      rcases hused with h | h
      · exact hr h
      · exact hn h

theorem remainingDeps_nodup (g : Graph) (target : TargetPtr) :
    ((remainingDeps g target).map Prod.fst).Nodup := by
  unfold remainingDeps
  exact (realDepsOf_nodup g (g.heap target).Reads).sublist
    (List.Sublist.map _ (List.filter_sublist _))

/-- The findings of the last loop over a map `rd` with distinct keys. -/
theorem mem_undeclaredOf (g : Graph) (target : TargetPtr)
    (rd : List (TargetPtr × StringPtr)) (hn : (rd.map Prod.fst).Nodup) (e : Error) :
    e ∈ undeclaredOf g target rd rd ↔
      ∃ d r, (d, r) ∈ rd ∧ findPath g [target] d = none ∧
        e = Error.undeclaredDep (g.heap target).Name r := by
  unfold undeclaredOf
  rw [List.mem_filterMap]
  constructor
  · rintro ⟨⟨d, r⟩, hmem, h⟩
    simp only at h
    cases hp : findPath g [target] d with
    | some path => simp [hp] at h
    | none =>
      simp only [hp, mapGet_of_mem rd d r hn hmem, Option.map_some'] at h
      exact ⟨d, r, hmem, hp, (Option.some.inj h).symm⟩
  · rintro ⟨d, r, hmem, hp, rfl⟩
    refine ⟨(d, r), hmem, ?_⟩
    simp only [hp, mapGet_of_mem rd d r hn hmem, Option.map_some']

/-- The last loop emits no finding twice when distinct keys of `rd` hold
distinct reads. -/
theorem undeclaredOf_nodup (g : Graph) (target : TargetPtr)
    (rd : List (TargetPtr × StringPtr)) (hn : (rd.map Prod.fst).Nodup)
    (hinj : ∀ d d' r, (d, r) ∈ rd → (d', r) ∈ rd → d = d') :
    (undeclaredOf g target rd rd).Nodup := by
  have hkeys : undeclaredOf g target rd rd =
      (rd.map Prod.fst).filterMap (fun d =>
        match findPath g [target] d with
        | some _ => none
        | none => (mapGet rd d).map (Error.undeclaredDep (g.heap target).Name)) := by
    unfold undeclaredOf
    rw [List.filterMap_map]
    rfl
  rw [hkeys]
  apply List.Nodup.filterMap _ hn
  intro d d' e hd hd'
  simp only [Option.mem_def] at hd hd'
  cases hp : findPath g [target] d with
  | some path => simp [hp] at hd
  | none =>
    cases hp' : findPath g [target] d' with
    | some path => simp [hp'] at hd'
    | none =>
      simp only [hp, Option.map_eq_some'] at hd
      simp only [hp', Option.map_eq_some'] at hd'
      obtain ⟨r, hr, rfl⟩ := hd
      obtain ⟨r', hr', heq⟩ := hd'
      simp only [Error.undeclaredDep.injEq, true_and] at heq
      subst heq
      exact hinj d d' r' (mapGet_mem rd d r' hr) (mapGet_mem rd d' r' hr')

theorem addPathEdges_subset (e : edge) :
    ∀ (path : List TargetPtr) (edges : List edge), e ∈ edges → e ∈ addPathEdges edges path := by
  intro path
  induction path with
  | nil => intro edges h; simpa [addPathEdges] using h
  | cons a path ih =>
    intro edges h
    cases path with
    | nil => simpa [addPathEdges] using h
    | cons b rest =>
      rw [addPathEdges]
      exact ih _ ((mem_setAdd _ _ _).2 (Or.inl h))

/-- Every consecutive pair of the path is in the edge set after the loop
over the path. -/
theorem addPathEdges_pairs :
    ∀ (path : List TargetPtr) (edges : List edge) (i : Nat) (a b : TargetPtr),
      path[i]? = some a → path[i + 1]? = some b →
      edge.mk (some a) (some b) ∈ addPathEdges edges path := by
  intro path
  induction path with
  | nil => intro edges i a b h; simp at h
  | cons x path ih =>
    intro edges i a b ha hb
    cases path with
    | nil => simp at hb
    | cons y rest =>
      rw [addPathEdges]
      cases i with
      | zero =>
        simp only [List.getElem?_cons_zero, Option.some.injEq] at ha
        simp only [zero_add, List.getElem?_cons_succ, List.getElem?_cons_zero,
          Option.some.injEq] at hb
        subst ha hb
        exact addPathEdges_subset _ _ _ ((mem_setAdd _ _ _).2 (Or.inr rfl))
      | succ i =>
        rw [List.getElem?_cons_succ] at ha hb
        exact ih _ i a b ha hb

theorem creditedOf_subset (g : Graph) (target : TargetPtr) (e : edge) :
    ∀ (l : List (TargetPtr × StringPtr)) (edges : List edge),
      e ∈ edges → e ∈ creditedOf g target edges l := by
  intro l
  induction l with
  | nil => intro edges h; exact h
  | cons entry l ih =>
    intro edges h
    unfold creditedOf
    rw [List.foldl_cons]
    cases hp : findPath g [target] entry.1 with
    | some path => exact ih _ (addPathEdges_subset e path edges h)
    | none => exact ih _ h

/-- The edges of a path found for an entry of the last loop are in the edge
set after the loop. -/
theorem creditedOf_path (g : Graph) (target : TargetPtr) (d : TargetPtr)
    (path : List TargetPtr) (hp : findPath g [target] d = some path)
    (i : Nat) (a b : TargetPtr) (ha : path[i]? = some a) (hb : path[i + 1]? = some b) :
    ∀ (l : List (TargetPtr × StringPtr)) (edges : List edge),
      d ∈ l.map Prod.fst → edge.mk (some a) (some b) ∈ creditedOf g target edges l := by
  intro l
  induction l with
  | nil => intro edges h; simp at h
  | cons entry l ih =>
    intro edges h
    unfold creditedOf
    rw [List.foldl_cons]
    rw [List.map_cons, List.mem_cons] at h
    rcases h with h | h
    · rw [← h, hp]
      exact creditedOf_subset g target _ l _ (addPathEdges_pairs path edges i a b ha hb)
    · cases hp' : findPath g [target] entry.1 with
      | some path' => exact ih _ h
      | none => exact ih _ h

/-! ## The whole run in closed form -/

theorem dyn_self (g : Graph) : g.dyn (fun p => (g.heap p).Errors) g.UsedEdges g.Errors = g :=
  rfl

theorem findPath_dyn (g : Graph) (E : TargetPtr → List Error) (U : List edge)
    (Es : List Error) (part : List TargetPtr) (needle : TargetPtr) :
    findPath (g.dyn E U Es) part needle = findPath g part needle := by
  have h := findPathFuel_congr g (g.dyn E U Es) rfl (fun _ => rfl) needle
  unfold findPath
  rw [h]
  rfl

theorem undeclaredOf_dyn (g : Graph) (E : TargetPtr → List Error) (U : List edge)
    (Es : List Error) (target : TargetPtr) (rd l : List (TargetPtr × StringPtr)) :
    undeclaredOf (g.dyn E U Es) target rd l = undeclaredOf g target rd l := by
  unfold undeclaredOf
  simp only [findPath_dyn]
  rfl

theorem creditedOf_dyn (g : Graph) (E : TargetPtr → List Error) (U : List edge)
    (Es : List Error) (target : TargetPtr) (edges : List edge)
    (l : List (TargetPtr × StringPtr)) :
    creditedOf (g.dyn E U Es) target edges l = creditedOf g target edges l := by
  unfold creditedOf
  simp only [findPath_dyn]

theorem remainingDeps_dyn (g : Graph) (E : TargetPtr → List Error) (U : List edge)
    (Es : List Error) (target : TargetPtr) :
    remainingDeps (g.dyn E U Es) target = remainingDeps g target := rfl

theorem directEdges_dyn (g : Graph) (E : TargetPtr → List Error) (U : List edge)
    (Es : List Error) (target : TargetPtr) :
    directEdges (g.dyn E U Es) target = directEdges g target := rfl

/-- The function `checkTarget` on a graph in which earlier calls have
already assigned `Errors` fields: the result is that on `g`, and only
`target.Errors` is extended. -/
theorem checkTarget_dyn (g : Graph) (E : TargetPtr → List Error) (U : List edge)
    (Es : List Error) (target : TargetPtr) :
    checkTarget (g.dyn E U Es) target =
      ((checkTarget g target).1,
        g.dyn (fun p => if p = target then E p ++ (checkTarget g target).1.errors else E p)
          U Es) := by
  rw [checkTarget_eq (g.dyn E U Es) target, checkTarget_eq g target]
  simp only [remainingDeps_dyn, directEdges_dyn, undeclaredOf_dyn, creditedOf_dyn]
  refine Prod.ext rfl ?_
  simp only [Graph.appendErrors, Graph.dyn, Graph.mk.injEq, and_true]
  funext p
  by_cases hp : p = target <;> simp [hp]

theorem appendError_dyn (g : Graph) (E : TargetPtr → List Error) (U : List edge)
    (Es : List Error) (target : TargetPtr) (e : Error) :
    (g.dyn E U Es).appendError target e =
      g.dyn (fun p => if p = target then E p ++ [e] else E p) U Es := by
  simp only [Graph.appendError, Graph.dyn, Graph.mk.injEq, and_true]
  funext p
  by_cases hp : p = target <;> simp [hp]

theorem unused_fold (g : Graph) (U : List edge) (Es : List Error) (target : TargetPtr) :
    ∀ (deps : List StringPtr) (E : TargetPtr → List Error),
      deps.foldl (fun g dep =>
        let depTarget := mapGet g.TargetByName dep
        if (edge.mk (some target) depTarget) ∈ g.UsedEdges then g
        else g.appendError target (Error.unusedDep (g.heap target).Name dep))
        (g.dyn E U Es) =
      g.dyn (fun p => if p = target then E p ++ unusedOf g U target deps else E p) U Es := by
  intro deps
  induction deps with
  | nil =>
    intro E
    simp only [List.foldl_nil, unusedOf, List.filterMap_nil, List.append_nil]
    congr 1
    funext p
    by_cases hp : p = target <;> simp [hp]
  | cons dep deps ih =>
    intro E
    rw [List.foldl_cons]
    by_cases hu : edge.mk (some target) (mapGet g.TargetByName dep) ∈ U
    · have hstep : (if (edge.mk (some target) (mapGet (g.dyn E U Es).TargetByName dep)) ∈
          (g.dyn E U Es).UsedEdges then g.dyn E U Es
          else (g.dyn E U Es).appendError target
            (Error.unusedDep ((g.dyn E U Es).heap target).Name dep)) = g.dyn E U Es :=
        if_pos hu
      simp only at hstep ⊢
      rw [hstep, ih]
      simp [unusedOf, hu]
    · have hstep : (if (edge.mk (some target) (mapGet (g.dyn E U Es).TargetByName dep)) ∈
          (g.dyn E U Es).UsedEdges then g.dyn E U Es
          else (g.dyn E U Es).appendError target
            (Error.unusedDep ((g.dyn E U Es).heap target).Name dep)) =
          g.dyn (fun p => if p = target then
            E p ++ [Error.unusedDep (g.heap target).Name dep] else E p) U Es := by
        have hu' : edge.mk (some target) (mapGet (g.dyn E U Es).TargetByName dep) ∉
            (g.dyn E U Es).UsedEdges := hu
        rw [if_neg hu', appendError_dyn]
        rfl
      simp only at hstep ⊢
      rw [hstep, ih]
      congr 1
      funext p
      by_cases hp : p = target <;> simp [hp, unusedOf, hu]

/-- The function `checkUnusedDeps` in closed form. -/
theorem checkUnusedDeps_dyn (g : Graph) (E : TargetPtr → List Error) (U : List edge)
    (Es : List Error) (target : TargetPtr) :
    checkUnusedDeps (g.dyn E U Es) target =
      g.dyn (fun p => if p = target then E p ++ unusedOf g U target (g.heap target).Deps
        else E p) U Es :=
  unused_fold g U Es target (g.heap target).Deps E

theorem runTargets_fold (g : Graph) (U : List edge) (Es : List Error) :
    ∀ (l : List (StringPtr × TargetPtr)) (rs : List checkTargetResult)
      (E : TargetPtr → List Error),
      l.foldl (fun (st : List checkTargetResult × Graph) entry =>
        let r := checkTarget st.2 entry.2
        (st.1 ++ [r.1], r.2)) (rs, g.dyn E U Es) =
      (rs ++ l.map (fun en => (checkTarget g en.2).1), g.dyn (runErrors g l E) U Es) := by
  intro l
  induction l with
  | nil => intro rs E; simp [runErrors]
  | cons en l ih =>
    intro rs E
    rw [List.foldl_cons]
    simp only [checkTarget_dyn]
    rw [ih]
    simp [runErrors]

theorem merge_fold (g : Graph) (E : TargetPtr → List Error) :
    ∀ (rs : List checkTargetResult) (U : List edge) (Es : List Error),
      rs.foldl mergeResult (g.dyn E U Es) = g.dyn E (mergedEdges U rs) (mergedErrors Es rs) := by
  intro rs
  induction rs with
  | nil => intro U Es; rfl
  | cons r rs ih =>
    intro U Es
    rw [List.foldl_cons]
    have hstep : mergeResult (g.dyn E U Es) r =
        g.dyn E (r.edges.foldl setAdd U) (Es ++ r.errors) := rfl
    rw [hstep, ih]
    rfl

theorem phase2_fold (g : Graph) (U : List edge) (Es : List Error) :
    ∀ (l : List (StringPtr × TargetPtr)) (E : TargetPtr → List Error),
      l.foldl (fun g entry => checkUnusedDeps g entry.2) (g.dyn E U Es) =
        g.dyn (unusedErrors g U l E) U Es := by
  intro l
  induction l with
  | nil => intro E; rfl
  | cons en l ih =>
    intro E
    rw [List.foldl_cons, checkUnusedDeps_dyn, ih]
    rfl

/-- The function `checkTargets` in closed form. -/
theorem checkTargets_eq (g : Graph) :
    checkTargets g =
      g.dyn
        (unusedErrors g (mergedEdges g.UsedEdges (phase1Results g)) g.TargetByName
          (runErrors g g.TargetByName (fun p => (g.heap p).Errors)))
        (mergedEdges g.UsedEdges (phase1Results g))
        (mergedErrors g.Errors (phase1Results g)) := by
  have h1 := runTargets_fold g g.UsedEdges g.Errors g.TargetByName []
    (fun p => (g.heap p).Errors)
  rw [dyn_self, List.nil_append] at h1
  unfold checkTargets runTargets
  simp only [h1]
  rw [merge_fold, phase2_fold]
  rfl

theorem mem_foldl_setAdd {α : Type} [DecidableEq α] (x : α) :
    ∀ (l s : List α), x ∈ l.foldl setAdd s ↔ x ∈ s ∨ x ∈ l := by
  intro l
  induction l with
  | nil => intro s; simp
  | cons y l ih =>
    intro s
    rw [List.foldl_cons, ih, mem_setAdd, List.mem_cons]
    constructor
    · rintro ((h | h) | h)
      · exact Or.inl h
      · exact Or.inr (Or.inl h)
      · exact Or.inr (Or.inr h)
    · rintro (h | h | h)
      · exact Or.inl (Or.inl h)
      · exact Or.inl (Or.inr h)
      · exact Or.inr h

theorem mem_mergedEdges (e : edge) :
    ∀ (rs : List checkTargetResult) (U : List edge),
      e ∈ mergedEdges U rs ↔ e ∈ U ∨ ∃ r ∈ rs, e ∈ r.edges := by
  intro rs
  induction rs with
  | nil => intro U; simp [mergedEdges]
  | cons r rs ih =>
    intro U
    unfold mergedEdges at ih ⊢
    rw [List.foldl_cons, ih, mem_foldl_setAdd]
    constructor
    · rintro ((h | h) | ⟨r', hr', h⟩)
      · exact Or.inl h
      · exact Or.inr ⟨r, List.mem_cons_self _ _, h⟩
      · exact Or.inr ⟨r', List.mem_cons_of_mem _ hr', h⟩
    · rintro (h | ⟨r', hr', h⟩)
      · exact Or.inl (Or.inl h)
      · rcases List.mem_cons.1 hr' with rfl | hin
        · exact Or.inl (Or.inr h)
        · exact Or.inr ⟨r', hin, h⟩

theorem mem_mergedErrors (e : Error) :
    ∀ (rs : List checkTargetResult) (Es : List Error),
      e ∈ mergedErrors Es rs ↔ e ∈ Es ∨ ∃ r ∈ rs, e ∈ r.errors := by
  intro rs
  induction rs with
  | nil => intro Es; simp [mergedErrors]
  | cons r rs ih =>
    intro Es
    unfold mergedErrors at ih ⊢
    rw [List.foldl_cons, ih, List.mem_append]
    constructor
    · rintro ((h | h) | ⟨r', hr', h⟩)
      · exact Or.inl h
      · exact Or.inr ⟨r, List.mem_cons_self _ _, h⟩
      · exact Or.inr ⟨r', List.mem_cons_of_mem _ hr', h⟩
    · rintro (h | ⟨r', hr', h⟩)
      · exact Or.inl (Or.inl h)
      · rcases List.mem_cons.1 hr' with rfl | hin
        · exact Or.inl (Or.inr h)
        · exact Or.inr ⟨r', hin, h⟩

theorem mem_runErrors (g : Graph) (e : Error) (p : TargetPtr) :
    ∀ (l : List (StringPtr × TargetPtr)) (E : TargetPtr → List Error),
      e ∈ runErrors g l E p ↔
        e ∈ E p ∨ (p ∈ l.map Prod.snd ∧ e ∈ (checkTarget g p).1.errors) := by
  intro l
  induction l with
  | nil => intro E; simp [runErrors]
  | cons en l ih =>
    intro E
    rw [runErrors, ih]
    by_cases hp : p = en.2
    · subst hp
      simp only [if_true, List.mem_append, List.map_cons, List.mem_cons, true_or, true_and]
      tauto
    · simp only [hp, if_false, List.map_cons, List.mem_cons, false_or]

theorem mem_unusedErrors (g : Graph) (U : List edge) (e : Error) (p : TargetPtr) :
    ∀ (l : List (StringPtr × TargetPtr)) (E : TargetPtr → List Error),
      e ∈ unusedErrors g U l E p ↔
        e ∈ E p ∨ (p ∈ l.map Prod.snd ∧ e ∈ unusedOf g U p (g.heap p).Deps) := by
  intro l
  induction l with
  | nil => intro E; simp [unusedErrors]
  | cons en l ih =>
    intro E
    rw [unusedErrors, ih]
    by_cases hp : p = en.2
    · subst hp
      simp only [if_true, List.mem_append, List.map_cons, List.mem_cons, true_or, true_and]
      tauto
    · simp only [hp, if_false, List.map_cons, List.mem_cons, false_or]

/-- The used edges after `checkTargets`: those before, and the edges of the
result of `checkTarget` for every target of `TargetByName`. -/
theorem mem_usedEdges_checkTargets (g : Graph) (e : edge) :
    e ∈ (checkTargets g).UsedEdges ↔
      e ∈ g.UsedEdges ∨ ∃ en ∈ g.TargetByName, e ∈ (checkTarget g en.2).1.edges := by
  rw [checkTargets_eq]
  show e ∈ mergedEdges g.UsedEdges (phase1Results g) ↔ _
  rw [mem_mergedEdges]
  unfold phase1Results
  simp only [List.mem_map, exists_exists_and_eq_and]

/-- The graph-level `Errors` after `checkTargets`: those before, and the
errors of the result of `checkTarget` for every target of `TargetByName`. -/
theorem mem_errors_checkTargets (g : Graph) (e : Error) :
    e ∈ (checkTargets g).Errors ↔
      e ∈ g.Errors ∨ ∃ en ∈ g.TargetByName, e ∈ (checkTarget g en.2).1.errors := by
  rw [checkTargets_eq]
  show e ∈ mergedErrors g.Errors (phase1Results g) ↔ _
  rw [mem_mergedErrors]
  unfold phase1Results
  simp only [List.mem_map, exists_exists_and_eq_and]

/-- The `Errors` of a target after `checkTargets`: those before, the errors
of `checkTarget` and the findings of `checkUnusedDeps` when the target is in
`TargetByName`. -/
theorem mem_target_errors_checkTargets (g : Graph) (p : TargetPtr) (e : Error) :
    e ∈ ((checkTargets g).heap p).Errors ↔
      e ∈ (g.heap p).Errors ∨ (p ∈ g.TargetByName.map Prod.snd ∧
        (e ∈ (checkTarget g p).1.errors ∨
          e ∈ unusedOf g (checkTargets g).UsedEdges p (g.heap p).Deps)) := by
  rw [checkTargets_eq]
  show e ∈ unusedErrors g _ g.TargetByName _ p ↔ _
  rw [mem_unusedErrors, mem_runErrors]
  show _ ↔ _ ∨ (_ ∧ (_ ∨ e ∈ unusedOf g (mergedEdges g.UsedEdges (phase1Results g)) p _))
  tauto

/-! ## Properties of `findPath` -/

theorem chain_get (g : Graph) :
    ∀ (s : List TargetPtr) (t : TargetPtr) (j : Nat) (a b : TargetPtr),
      List.Chain (DeclEdge g) t s → (t :: s)[j]? = some a →
      (t :: s)[j + 1]? = some b → DeclEdge g a b := by
  intro s
  induction s with
  | nil => intro t j a b _ _ hb; simp at hb
  | cons x s ih =>
    intro t j a b hchain ha hb
    rw [List.chain_cons] at hchain
    cases j with
    | zero =>
      simp only [List.getElem?_cons_zero, Option.some.injEq] at ha
      simp only [zero_add, List.getElem?_cons_succ, List.getElem?_cons_zero,
        Option.some.injEq] at hb
      subst ha hb
      exact hchain.1
    | succ j =>
      rw [List.getElem?_cons_succ] at ha hb
      exact ih x j a b hchain.2 ha hb

/-- C7 (completeness of `findPath`): `findPath([T], D)` returns `nil` if and
only if there is no sequence of targets `T = t0, t1, ..., tk = D` in which
each `t(i+1)` is `g.TargetByName[d]` for some `d` in `t(i).Deps`.  The graph
is arbitrary: its `Deps` sets are enumerated in any order and its declared
edges may form cycles. -/
theorem findPath_nil_iff_no_sequence (g : Graph) (T D : TargetPtr) :
    findPath g [T] D = none ↔
      ¬ ∃ s : List TargetPtr, List.Chain (DeclEdge g) T s ∧ (T :: s).getLast? = some D := by
  rw [findPath_none_iff]
  constructor
  · rintro hno ⟨s, hchain, hend⟩
    exact hno (reach_of_chain g s T D hchain hend)
  · intro hno hreach
    obtain ⟨s, hchain, hend, _⟩ := simple_chain_of_reach g T D hreach
    exact hno ⟨s, hchain, hend⟩

/-- C8 (soundness of `findPath`): for a non-empty duplicate-free partial path
`part`, a non-nil result `p` of `findPath(part, needle)` has `part` as a
prefix, ends in `needle`, has a declared edge between `p[i]` and `p[i+1]`
whenever `p[i+1]` lies beyond `part`, and contains no target twice. -/
theorem findPath_sound (g : Graph) (part p : List TargetPtr) (needle : TargetPtr)
    (hne : part ≠ []) (hnodup : part.Nodup) (h : findPath g part needle = some p) :
    part <+: p ∧ p.getLast? = some needle ∧
      (∀ (i : Nat) (a b : TargetPtr), part.length ≤ i + 1 → p[i]? = some a →
        p[i + 1]? = some b → DeclEdge g a b) ∧
      p.Nodup := by
  have heq := findPath_eq g part needle hne
  rw [h] at heq
  obtain ⟨init, target, rfl⟩ : ∃ init target, part = init ++ [target] :=
    ⟨part.dropLast, part.getLast hne, (List.dropLast_append_getLast hne).symm⟩
  obtain ⟨s, hp, hl, hchain, hnd⟩ :=
    findPathFuel_sound g needle _ (init ++ [target]) p target (List.getLast?_concat init) heq
  refine ⟨⟨s, hp.symm⟩, hl, ?_, hnd hnodup⟩
  intro i a b hi ha hb
  have hp' : p = init ++ (target :: s) := by rw [hp]; simp
  have hlen : init.length ≤ i := by
    simp only [List.length_append, List.length_singleton] at hi
    omega
  rw [hp', List.getElem?_append_right hlen] at ha
  rw [hp', List.getElem?_append_right (by omega)] at hb
  have hidx : i + 1 - init.length = (i - init.length) + 1 := by omega
  rw [hidx] at hb
  exact chain_get g s target (i - init.length) a b hchain ha hb

/-- Witness for C8 on the chain `A → B → C`: the search from `[A]` for `C`
returns `[A, B, C]`. -/
theorem findPath_sound_witness :
    findPath graphChain [1] 3 = some [1, 2, 3] ∧
      ([1] <+: [1, 2, 3] ∧ [1, 2, 3].getLast? = some 3 ∧
        (∀ (i : Nat) (a b : TargetPtr), [1].length ≤ i + 1 → [1, 2, 3][i]? = some a →
          [1, 2, 3][i + 1]? = some b → DeclEdge graphChain a b) ∧
        [1, 2, 3].Nodup) :=
  ⟨by decide, findPath_sound graphChain [1] [1, 2, 3] 3 (by decide) (by decide) (by decide)⟩

theorem calls_invariant (g : Graph) (needle : TargetPtr) (part part1 : List TargetPtr)
    (h : Relation.ReflTransGen (Calls g needle) part part1) :
    (part.Nodup ∧ ∀ x ∈ part, x ∈ g.TargetByName.map Prod.snd) →
      (part1.Nodup ∧ ∀ x ∈ part1, x ∈ g.TargetByName.map Prod.snd) := by
  induction h with
  | refl => exact fun h => h
  | tail _ hstep ih =>
    intro h0
    obtain ⟨hnd, hsub⟩ := ih h0
    cases hstep with
    | step target d dep _ _ _ hdep hnot =>
      constructor
      · rw [List.nodup_append]
        refine ⟨hnd, List.nodup_singleton dep, ?_⟩
        intro x hx hx'
        rw [List.mem_singleton] at hx'
        subst hx'
        exact hnot hx
      · intro x hx
        rcases List.mem_append.1 hx with h | h
        · exact hsub x h
        · rw [List.mem_singleton] at h
          subst h
          exact List.mem_map.2 ⟨(d, x), mapGet_mem _ _ _ hdep, rfl⟩

/-- C9 (termination of `findPath`): started on `[T]` for a target `T` of
`TargetByName`, the search returns within a recursion depth of the number of
entries of `TargetByName`, whatever cycles the declared dependencies form;
every partial path on which a recursive call is made has at most as many
targets as `TargetByName` has distinct values; and every search that `checkTarget` starts returns under the bound
that `findPath` uses, so that `checkTarget` and `checkTargets`, which are
loops over finite maps around it, return as well. -/
theorem findPath_terminates (g : Graph) (T D : TargetPtr)
    (hT : T ∈ g.TargetByName.map Prod.snd) :
    findPathFuel g g.TargetByName.length [T] D ≠ none ∧
      (∀ part, Relation.ReflTransGen (Calls g D) [T] part →
        part.length ≤ (g.TargetByName.map Prod.snd).dedup.length ∧
        part.length ≤ g.TargetByName.length) ∧
      (∀ T1 D1 : TargetPtr, findPathFuel g (g.TargetByName.length + 1) [T1] D1 =
        some (findPath g [T1] D1)) := by
  refine ⟨?_, ?_, fun T1 D1 => findPath_eq g [T1] D1 (by simp)⟩
  · apply findPathFuel_returns g D _ [T] (by simp)
    have hlt := filter_length_lt_of_imp (fun _ => true)
      (fun t => decide (t ∉ [T])) (g.TargetByName.map Prod.snd) (fun _ _ => rfl) T hT rfl
      (decide_eq_false (fun h => h (List.mem_singleton_self T)))
    simp only [List.filter_true, List.length_map] at hlt
    exact hlt
  · intro part hcalls
    obtain ⟨hnd, hsub⟩ := calls_invariant g D [T] part hcalls
      ⟨List.nodup_singleton T, fun x hx => by rw [List.mem_singleton] at hx; rwa [hx]⟩
    have hle := (hnd.subperm (fun x hx => List.mem_dedup.2 (hsub x hx))).length_le
    have hle2 := (List.dedup_sublist (g.TargetByName.map Prod.snd)).length_le
    rw [List.length_map] at hle2
    exact ⟨hle, le_trans hle hle2⟩

/-- Witness for C9 on the cycle `A ⇄ B`: the search from `[A]` for a target
that is not reachable returns `nil`. -/
theorem findPath_terminates_witness :
    (1 ∈ graphCycle.TargetByName.map Prod.snd) ∧ findPath graphCycle [1] 3 = none ∧
      (findPathFuel graphCycle graphCycle.TargetByName.length [1] 3 ≠ none ∧
        (∀ part, Relation.ReflTransGen (Calls graphCycle 3) [1] part →
          part.length ≤ (graphCycle.TargetByName.map Prod.snd).dedup.length ∧
          part.length ≤ graphCycle.TargetByName.length) ∧
        (∀ T1 D1 : TargetPtr,
          findPathFuel graphCycle (graphCycle.TargetByName.length + 1) [T1] D1 =
            some (findPath graphCycle [T1] D1))) :=
  ⟨by decide, by decide, findPath_terminates graphCycle 1 3 (by decide)⟩

/-! ## Properties of `checkTarget` -/

theorem checkTarget_errors_eq (g : Graph) (T : TargetPtr) :
    (checkTarget g T).1.errors =
      undeclaredOf g T (remainingDeps g T) (remainingDeps g T) := by
  rw [checkTarget_eq]

theorem checkTarget_edges_eq (g : Graph) (T : TargetPtr) :
    (checkTarget g T).1.edges =
      creditedOf g T (directEdges g T) (remainingDeps g T) := by
  rw [checkTarget_eq]

/-- The errors returned by `checkTarget`, one by one. -/
theorem mem_checkTarget_errors (g : Graph) (T : TargetPtr) (e : Error) :
    e ∈ (checkTarget g T).1.errors ↔
      ∃ D r, mapGet (realDepsOf g (g.heap T).Reads) D = some r ∧
        r ∉ (g.heap T).Deps ∧ (g.heap D).Name ∉ (g.heap T).Deps ∧
        findPath g [T] D = none ∧ e = Error.undeclaredDep (g.heap T).Name r := by
  rw [checkTarget_errors_eq, mem_undeclaredOf g T _ (remainingDeps_nodup g T)]
  constructor
  · rintro ⟨D, r, hmem, hp, he⟩
    obtain ⟨h1, h2, h3⟩ := (mem_remainingDeps g T D r).1 hmem
    exact ⟨D, r, h1, h2, h3, hp, he⟩
  · rintro ⟨D, r, h1, h2, h3, hp, he⟩
    exact ⟨D, r, (mem_remainingDeps g T D r).2 ⟨h1, h2, h3⟩, hp, he⟩

theorem checkTarget_errors_nodup (g : Graph) (T : TargetPtr) :
    (checkTarget g T).1.errors.Nodup := by
  rw [checkTarget_errors_eq]
  apply undeclaredOf_nodup g T _ (remainingDeps_nodup g T)
  intro d d' r hd hd'
  have h1 := realDepsOf_get g _ d r ((mem_remainingDeps g T d r).1 hd).1
  have h2 := realDepsOf_get g _ d' r ((mem_remainingDeps g T d' r).1 hd').1
  rw [h1.2] at h2
  exact Option.some.inj h2.2

/-- C3: the errors returned by `checkTarget(T)` are exactly the findings
`undeclaredDep{T.Name, r}` for the targets `D` that wrote a file `T` read,
`r` being the read kept for `D` in `realDeps`, such that `T.Deps` contains
neither `r` nor `D.Name` and no sequence of declared dependencies leads from
`T` to `D`; no finding occurs twice; the same findings are appended to
`T.Errors`; the read kept for `D` is a read of `T` that `D` wrote, and every
`D` that wrote a read of `T` has one; and a target all of whose attributed
reads are justified, directly or by such a sequence, gets no finding. -/
theorem checkTarget_errors_exact (g : Graph) (T : TargetPtr) :
    (∀ e, e ∈ (checkTarget g T).1.errors ↔
      ∃ D r, mapGet (realDepsOf g (g.heap T).Reads) D = some r ∧
        r ∉ (g.heap T).Deps ∧ (g.heap D).Name ∉ (g.heap T).Deps ∧
        (¬ ∃ s : List TargetPtr, List.Chain (DeclEdge g) T s ∧
          (T :: s).getLast? = some D) ∧
        e = Error.undeclaredDep (g.heap T).Name r) ∧
    (checkTarget g T).1.errors.Nodup ∧
    ((checkTarget g T).2.heap T).Errors = (g.heap T).Errors ++ (checkTarget g T).1.errors ∧
    (∀ D r, mapGet (realDepsOf g (g.heap T).Reads) D = some r →
      r ∈ (g.heap T).Reads ∧ mapGet g.TargetByWrite r = some D) ∧
    (∀ D, (∃ r ∈ (g.heap T).Reads, mapGet g.TargetByWrite r = some D) →
      ∃ r, mapGet (realDepsOf g (g.heap T).Reads) D = some r) ∧
    ((∀ r ∈ (g.heap T).Reads, ∀ D, mapGet g.TargetByWrite r = some D →
        r ∈ (g.heap T).Deps ∨ (g.heap D).Name ∈ (g.heap T).Deps ∨
        ∃ s : List TargetPtr, List.Chain (DeclEdge g) T s ∧ (T :: s).getLast? = some D) →
      (checkTarget g T).1.errors = []) := by
  have hmem : ∀ e, e ∈ (checkTarget g T).1.errors ↔
      ∃ D r, mapGet (realDepsOf g (g.heap T).Reads) D = some r ∧
        r ∉ (g.heap T).Deps ∧ (g.heap D).Name ∉ (g.heap T).Deps ∧
        (¬ ∃ s : List TargetPtr, List.Chain (DeclEdge g) T s ∧
          (T :: s).getLast? = some D) ∧
        e = Error.undeclaredDep (g.heap T).Name r := by
    intro e
    rw [mem_checkTarget_errors]
    constructor
    · rintro ⟨D, r, h1, h2, h3, hp, he⟩
      refine ⟨D, r, h1, h2, h3, ?_, he⟩
      rintro ⟨s, hchain, hend⟩
      exact (findPath_none_iff g T D).1 hp (reach_of_chain g s T D hchain hend)
    · rintro ⟨D, r, h1, h2, h3, hno, he⟩
      refine ⟨D, r, h1, h2, h3, (findPath_none_iff g T D).2 ?_, he⟩
      intro hreach
      obtain ⟨s, hchain, hend, _⟩ := simple_chain_of_reach g T D hreach
      exact hno ⟨s, hchain, hend⟩
  refine ⟨hmem, checkTarget_errors_nodup g T, ?_, ?_, ?_, ?_⟩
  · rw [checkTarget_eq]
    simp [Graph.appendErrors]
  · intro D r h
    exact realDepsOf_get g _ D r h
  · rintro D ⟨r, hr, hw⟩
    exact realDepsOf_has g _ D r hr hw
  · intro hall
    apply List.eq_nil_iff_forall_not_mem.2
    intro e he
    obtain ⟨D, r, h1, h2, h3, hno, _⟩ := (hmem e).1 he
    obtain ⟨hr, hw⟩ := realDepsOf_get g _ D r h1
    rcases hall r hr D hw with h | h | h
    · exact h2 h
    · exact h3 h
    · exact hno h

/-- Witness for C3: in `graphUndeclared` the target `A` reads the file 20
written by `D` and declares nothing; `checkTarget(A)` returns the single
finding `undeclaredDep{A.Name, 20}` and appends it to `A.Errors`. -/
theorem checkTarget_errors_exact_witness :
    (checkTarget graphUndeclared 1).1.errors = [Error.undeclaredDep 11 20] ∧
      ((checkTarget graphUndeclared 1).2.heap 1).Errors =
        (graphUndeclared.heap 1).Errors ++ (checkTarget graphUndeclared 1).1.errors :=
  ⟨by decide, (checkTarget_errors_exact graphUndeclared 1).2.2.1⟩

/-- The edges of a path that justifies an entry left in `realDeps`. -/
theorem checkTarget_path_edges (g : Graph) (T D : TargetPtr) (r : StringPtr)
    (p : List TargetPtr)
    (hkept : mapGet (realDepsOf g (g.heap T).Reads) D = some r)
    (hread : r ∉ (g.heap T).Deps) (hname : (g.heap D).Name ∉ (g.heap T).Deps)
    (hp : findPath g [T] D = some p) (i : Nat) (a b : TargetPtr)
    (ha : p[i]? = some a) (hb : p[i + 1]? = some b) :
    edge.mk (some a) (some b) ∈ (checkTarget g T).1.edges := by
  rw [checkTarget_edges_eq]
  apply creditedOf_path g T D p hp i a b ha hb
  exact List.mem_map.2 ⟨(D, r), (mem_remainingDeps g T D r).2 ⟨hkept, hread, hname⟩, rfl⟩

/-- No finding is returned for a producer to which a path was found. -/
theorem checkTarget_no_error_of_path (g : Graph) (T D : TargetPtr) (p : List TargetPtr)
    (hp : findPath g [T] D = some p) (r : StringPtr)
    (hw : mapGet g.TargetByWrite r = some D) :
    Error.undeclaredDep (g.heap T).Name r ∉ (checkTarget g T).1.errors := by
  intro he
  obtain ⟨D', r', h1, _, _, hnone, heq⟩ := (mem_checkTarget_errors g T _).1 he
  simp only [Error.undeclaredDep.injEq, true_and] at heq
  subst heq
  have h2 := (realDepsOf_get g _ D' r h1).2
  rw [hw] at h2
  simp only [Option.some.injEq] at h2
  subst h2
  rw [hp] at hnone
  simp at hnone

theorem unusedOf_is_unusedDep (g : Graph) (U : List edge) (T : TargetPtr)
    (deps : List StringPtr) (e : Error) (h : e ∈ unusedOf g U T deps) :
    ∃ dep ∈ deps, edge.mk (some T) (mapGet g.TargetByName dep) ∉ U ∧
      e = Error.unusedDep (g.heap T).Name dep := by
  unfold unusedOf at h
  obtain ⟨dep, hdep, h⟩ := List.mem_filterMap.1 h
  by_cases hu : edge.mk (some T) (mapGet g.TargetByName dep) ∈ U
  · simp [hu] at h
  · simp only [hu, if_false, Option.some.injEq] at h
    exact ⟨dep, hdep, hu, h.symm⟩

/-- The chain `A → B → C` of the transitive instance: the path found from
`[A]` to `C` starts with `A, B, C`. -/
theorem chain_instance_path (g : Graph) (A B C : TargetPtr) (nB nC : StringPtr)
    (hA : (g.heap A).Deps = [nB]) (hB : (g.heap B).Deps = [nC])
    (hnB : mapGet g.TargetByName nB = some B) (hnC : mapGet g.TargetByName nC = some C)
    (hAC : A ≠ C) (hBC : B ≠ C) :
    ∃ p, findPath g [A] C = some p ∧ p[0]? = some A ∧ p[1]? = some B ∧ p[2]? = some C := by
  have hAB : DeclEdge g A B := ⟨nB, by rw [hA]; exact List.mem_singleton_self nB, hnB⟩
  have hBC' : DeclEdge g B C := ⟨nC, by rw [hB]; exact List.mem_singleton_self nC, hnC⟩
  have hreach : Reach g A C :=
    Relation.ReflTransGen.head hAB (Relation.ReflTransGen.single hBC')
  cases hp : findPath g [A] C with
  | none => exact absurd hreach ((findPath_none_iff g A C).1 hp)
  | some p =>
    refine ⟨p, rfl, ?_⟩
    have heq := findPath_eq g [A] C (by simp)
    rw [hp] at heq
    obtain ⟨s, hs, hl, hchain, _⟩ := findPathFuel_sound g C _ [A] p A rfl heq
    subst hs
    cases s with
    | nil =>
      simp only [List.append_nil, List.getLast?_singleton, Option.some.injEq] at hl
      exact absurd hl hAC
    | cons x s =>
      rw [List.chain_cons] at hchain
      obtain ⟨⟨d, hd, hx⟩, hchain⟩ := hchain
      rw [hA, List.mem_singleton] at hd
      subst hd
      rw [hnB] at hx
      simp only [Option.some.injEq] at hx
      subst hx
      cases s with
      | nil =>
        simp at hl
        exact absurd hl hBC
      | cons y s =>
        rw [List.chain_cons] at hchain
        obtain ⟨⟨d, hd, hy⟩, _⟩ := hchain
        rw [hB, List.mem_singleton] at hd
        subst hd
        rw [hnC] at hy
        simp only [Option.some.injEq] at hy
        subst hy
        simp

/-- C4: when `checkTarget(T)` justifies a read transitively (the producer
`D` is left in `realDeps` and `findPath([T], D)` returns a path `p`), every
consecutive pair of `p` is in the returned edges and no `undeclaredDep` is
returned for a file written by `D`.  Instance: when `A` reads a file written
by `C`, declares only `B` (whose identifier is not a file written by `C`),
and `B` declares only `C`, with `A`, `B` different from `C`, then after
`checkTargets` the edges `(A, B)` and `(B, C)` are in `UsedEdges` and the
run attaches to `A` no `undeclaredDep` for a file written by `C`. -/
theorem checkTarget_transitive_credit :
    (∀ (g : Graph) (T D : TargetPtr) (r : StringPtr) (p : List TargetPtr),
      mapGet (realDepsOf g (g.heap T).Reads) D = some r →
      r ∉ (g.heap T).Deps → (g.heap D).Name ∉ (g.heap T).Deps →
      findPath g [T] D = some p →
      (∀ (i : Nat) (a b : TargetPtr), p[i]? = some a → p[i + 1]? = some b →
        edge.mk (some a) (some b) ∈ (checkTarget g T).1.edges) ∧
      (∀ r1, mapGet g.TargetByWrite r1 = some D →
        Error.undeclaredDep (g.heap T).Name r1 ∉ (checkTarget g T).1.errors)) ∧
    (∀ (g : Graph) (A B C : TargetPtr) (nB nC f : StringPtr),
      A ∈ g.TargetByName.map Prod.snd →
      (g.heap A).Deps = [nB] → (g.heap B).Deps = [nC] →
      mapGet g.TargetByName nB = some B → mapGet g.TargetByName nC = some C →
      (g.heap C).Name = nC →
      f ∈ (g.heap A).Reads → mapGet g.TargetByWrite f = some C →
      A ≠ C → B ≠ C → mapGet g.TargetByWrite nB ≠ some C →
      edge.mk (some A) (some B) ∈ (checkTargets g).UsedEdges ∧
      edge.mk (some B) (some C) ∈ (checkTargets g).UsedEdges ∧
      ∀ r, mapGet g.TargetByWrite r = some C →
        Error.undeclaredDep (g.heap A).Name r ∉ (g.heap A).Errors →
        Error.undeclaredDep (g.heap A).Name r ∉ ((checkTargets g).heap A).Errors) := by
  constructor
  · intro g T D r p hkept hread hname hp
    exact ⟨fun i a b ha hb => checkTarget_path_edges g T D r p hkept hread hname hp i a b ha hb,
      fun r1 hw => checkTarget_no_error_of_path g T D p hp r1 hw⟩
  · intro g A B C nB nC f hA hDA hDB hnB hnC hname hf hw hAC hBC hfile
    obtain ⟨p, hp, h0, h1, h2⟩ := chain_instance_path g A B C nB nC hDA hDB hnB hnC hAC hBC
    obtain ⟨r0, hr0⟩ := realDepsOf_has g _ C f hf hw
    have hr0w := (realDepsOf_get g _ C r0 hr0).2
    have hread : r0 ∉ (g.heap A).Deps := by
      rw [hDA, List.mem_singleton]
      intro h
      rw [h] at hr0w
      exact hfile hr0w
    have hnm : (g.heap C).Name ∉ (g.heap A).Deps := by
      rw [hDA, List.mem_singleton, hname]
      intro h
      rw [h, hnB] at hnC
      exact hBC (Option.some.inj hnC)
    obtain ⟨en, hen, henA⟩ := List.mem_map.1 hA
    have hedge : ∀ a b i, p[i]? = some a → p[i + 1]? = some b →
        edge.mk (some a) (some b) ∈ (checkTargets g).UsedEdges := by
      intro a b i ha hb
      rw [mem_usedEdges_checkTargets]
      refine Or.inr ⟨en, hen, ?_⟩
      rw [henA]
      exact checkTarget_path_edges g A C r0 p hr0 hread hnm hp i a b ha hb
    refine ⟨hedge A B 0 h0 h1, hedge B C 1 h1 h2, ?_⟩
    intro r hrw hinit hfinal
    rw [mem_target_errors_checkTargets] at hfinal
    rcases hfinal with h | ⟨_, h | h⟩
    · exact hinit h
    · exact checkTarget_no_error_of_path g A C p hp r hrw h
    · obtain ⟨dep, _, _, h⟩ := unusedOf_is_unusedDep g _ A _ _ h
      simp at h

/-- Witness for C4 on the chain `A → B → C` of `graphChain`. -/
theorem checkTarget_transitive_credit_witness :
    findPath graphChain [1] 3 = some [1, 2, 3] ∧
      (checkTarget graphChain 1).1.edges = [⟨some 1, some 2⟩, ⟨some 2, some 3⟩] ∧
      ((∀ (i : Nat) (a b : TargetPtr), [1, 2, 3][i]? = some a → [1, 2, 3][i + 1]? = some b →
          edge.mk (some a) (some b) ∈ (checkTarget graphChain 1).1.edges) ∧
        (∀ r1, mapGet graphChain.TargetByWrite r1 = some 3 →
          Error.undeclaredDep (graphChain.heap 1).Name r1 ∉
            (checkTarget graphChain 1).1.errors)) ∧
      (edge.mk (some 1) (some 2) ∈ (checkTargets graphChain).UsedEdges ∧
        edge.mk (some 2) (some 3) ∈ (checkTargets graphChain).UsedEdges ∧
        ∀ r, mapGet graphChain.TargetByWrite r = some 3 →
          Error.undeclaredDep (graphChain.heap 1).Name r ∉ (graphChain.heap 1).Errors →
          Error.undeclaredDep (graphChain.heap 1).Name r ∉
            ((checkTargets graphChain).heap 1).Errors) :=
  ⟨by decide, by decide,
    checkTarget_transitive_credit.1 graphChain 1 3 20 [1, 2, 3]
      (by decide) (by decide) (by decide) (by decide),
    checkTarget_transitive_credit.2 graphChain 1 2 3 12 13 20
      (by decide) (by decide) (by decide) (by decide) (by decide) (by decide)
      (by decide) (by decide) (by decide) (by decide) (by decide)⟩

/-- The edge of a producer whose kept read is declared by `A` is in
`UsedEdges` after `checkTargets`. -/
theorem usedEdges_of_declared_read (g : Graph) (A B : TargetPtr) (r : StringPtr)
    (hA : A ∈ g.TargetByName.map Prod.snd)
    (hkept : mapGet (realDepsOf g (g.heap A).Reads) B = some r)
    (hr : r ∈ (g.heap A).Deps) :
    edge.mk (some A) (some B) ∈ (checkTargets g).UsedEdges := by
  obtain ⟨en, hen, henA⟩ := List.mem_map.1 hA
  rw [mem_usedEdges_checkTargets]
  refine Or.inr ⟨en, hen, ?_⟩
  rw [henA, checkTarget_edges_eq]
  apply creditedOf_subset
  unfold directEdges
  rw [mem_direct_edges]
  exact Or.inr ⟨(B, r), (mem_realDepsOf g _ B r).2 hkept, hr, rfl⟩

/-! ## Properties of `checkUnusedDeps` and `checkTargets` -/

theorem count_unusedOf (g : Graph) (U : List edge) (T : TargetPtr) (dep : StringPtr) :
    ∀ (deps : List StringPtr), deps.Nodup →
      (unusedOf g U T deps).count (Error.unusedDep (g.heap T).Name dep) =
        if dep ∈ deps ∧ edge.mk (some T) (mapGet g.TargetByName dep) ∉ U then 1 else 0 := by
  intro deps
  induction deps with
  | nil => intro _; simp [unusedOf]
  | cons d deps ih =>
    intro hn
    rw [List.nodup_cons] at hn
    have ih' := ih hn.2
    unfold unusedOf at ih' ⊢
    rw [List.filterMap_cons]
    by_cases hd : d = dep
    · subst hd
      have hnot : ¬ (d ∈ deps ∧ edge.mk (some T) (mapGet g.TargetByName d) ∉ U) :=
        fun h => hn.1 h.1
      rw [if_neg hnot] at ih'
      by_cases hu : edge.mk (some T) (mapGet g.TargetByName d) ∈ U
      · simp [hu, ih']
      · simp [hu, ih']
    · have hne : dep ≠ d := fun h => hd h.symm
      by_cases hu : edge.mk (some T) (mapGet g.TargetByName d) ∈ U
      · simp only [hu, if_true, ih', List.mem_cons, hne, false_or]
      · simp only [hu, if_false, List.count_cons, ih', List.mem_cons, hne, false_or]
        simp [hd]

theorem checkUnusedDeps_errors (g : Graph) (T : TargetPtr) :
    ((checkUnusedDeps g T).heap T).Errors =
      (g.heap T).Errors ++ unusedOf g g.UsedEdges T (g.heap T).Deps := by
  have h := checkUnusedDeps_dyn g (fun p => (g.heap p).Errors) g.UsedEdges g.Errors T
  rw [dyn_self] at h
  rw [h]
  simp [Graph.dyn]

/-- C6: for an identifier `dep` of `T.Deps` that resolves to the target
`D = g.TargetByName[dep]`, `checkUnusedDeps(T)` appends to `T.Errors` a list
in which `unusedDep{T.Name, dep}` occurs once when the edge `(T, D)` is not in
`g.UsedEdges` and does not occur when it is.  `T.Deps` is a set: it holds no
identifier twice. -/
theorem checkUnusedDeps_resolved (g : Graph) (T D : TargetPtr) (dep : StringPtr)
    (hset : (g.heap T).Deps.Nodup) (hdep : dep ∈ (g.heap T).Deps)
    (hD : mapGet g.TargetByName dep = some D) :
    ∃ appended : List Error,
      ((checkUnusedDeps g T).heap T).Errors = (g.heap T).Errors ++ appended ∧
      appended.count (Error.unusedDep (g.heap T).Name dep) =
        if edge.mk (some T) (some D) ∈ g.UsedEdges then 0 else 1 := by
  refine ⟨unusedOf g g.UsedEdges T (g.heap T).Deps, checkUnusedDeps_errors g T, ?_⟩
  rw [count_unusedOf g g.UsedEdges T dep _ hset, hD]
  by_cases hu : edge.mk (some T) (some D) ∈ g.UsedEdges
  · simp [hu]
  · simp [hu, hdep]

/-- Witness for C6: in `graphUnused` the target `A` declares `E`, the edge
`(A, E)` is not in `UsedEdges`, and one `unusedDep{A, E}` is appended. -/
theorem checkUnusedDeps_resolved_witness :
    ((checkUnusedDeps graphUnused 1).heap 1).Errors = [Error.unusedDep 11 12] ∧
      ∃ appended : List Error,
        ((checkUnusedDeps graphUnused 1).heap 1).Errors =
          (graphUnused.heap 1).Errors ++ appended ∧
        appended.count (Error.unusedDep (graphUnused.heap 1).Name 12) =
          if edge.mk (some 1) (some 2) ∈ graphUnused.UsedEdges then 0 else 1 :=
  ⟨by decide, checkUnusedDeps_resolved graphUnused 1 2 12 (by decide) (by decide) (by decide)⟩

/-- C1, evaluated where the code departs from it: in the well-formed graph
`graphByName` the target `A` reads the file 20 written by `B` and declares
`B` by name; `checkTarget(A)` returns no edge and after `checkTargets` the
edge `(A, B)` is not in `UsedEdges`. -/
theorem direct_by_name_no_edge :
    WellFormed graphByName ∧
      mapGet graphByName.TargetByWrite 20 = some 2 ∧ 20 ∈ (graphByName.heap 1).Reads ∧
      (graphByName.heap 2).Name ∈ (graphByName.heap 1).Deps ∧
      edge.mk (some 1) (some 2) ∉ (checkTarget graphByName 1).1.edges ∧
      edge.mk (some 1) (some 2) ∉ (checkTargets graphByName).UsedEdges := by
  decide

/-- C2, evaluated where the code departs from it: in the well-formed graph
`graphByName` the target `A` declares `B` by name and reads the file 20
written by `B`; after `checkTargets` the list `A.Errors` holds
`unusedDep{A.Name, B.Name}`. -/
theorem direct_by_name_reported_unused :
    WellFormed graphByName ∧
      mapGet graphByName.TargetByName 12 = some 2 ∧ 12 ∈ (graphByName.heap 1).Deps ∧
      mapGet graphByName.TargetByWrite 20 = some 2 ∧ 20 ∈ (graphByName.heap 1).Reads ∧
      Error.unusedDep (graphByName.heap 1).Name (graphByName.heap 2).Name ∈
        ((checkTargets graphByName).heap 1).Errors := by
  decide

/-- C5, evaluated where the code departs from it: in `graphFileDep` the
identifier 30 of `A.Deps` resolves to no target, and `checkUnusedDeps(A)`
appends `unusedDep{A.Name, 30}` to `A.Errors`. -/
theorem unresolved_dep_reported_unused :
    WellFormed graphFileDep ∧
      30 ∈ (graphFileDep.heap 1).Deps ∧ mapGet graphFileDep.TargetByName 30 = none ∧
      ((checkUnusedDeps graphFileDep 1).heap 1).Errors =
        (graphFileDep.heap 1).Errors ++ [Error.unusedDep (graphFileDep.heap 1).Name 30] := by
  decide

/-- C10, evaluated where the code departs from it: in `graphUnused` the run
of `checkTargets` attaches `unusedDep{A.Name, E.Name}` to `A.Errors`, and the
graph-level `Errors` list does not hold it. -/
theorem unusedDep_not_in_graph_errors :
    WellFormed graphUnused ∧
      Error.unusedDep 11 12 ∉ (graphUnused.heap 1).Errors ∧
      Error.unusedDep 11 12 ∈ ((checkTargets graphUnused).heap 1).Errors ∧
      Error.unusedDep 11 12 ∉ (checkTargets graphUnused).Errors := by
  decide

/-! ## Unattributed reads -/

/-- The search depends on `TargetByName` through its lookups only. -/
theorem findPathFuel_congr_get (g g' : Graph)
    (hget : ∀ d, mapGet g'.TargetByName d = mapGet g.TargetByName d)
    (hd : ∀ p, (g'.heap p).Deps = (g.heap p).Deps) (needle : TargetPtr) :
    ∀ (fuel : Nat) (part : List TargetPtr),
      findPathFuel g' fuel part needle = findPathFuel g fuel part needle := by
  have hloop : ∀ (call call' : TargetPtr → Option (Option (List TargetPtr)))
      (part : List TargetPtr) (ds : List StringPtr), (∀ dep, call' dep = call dep) →
      nextDep g' call' part ds = nextDep g call part ds := by
    intro call call' part ds hc
    induction ds with
    | nil => rfl
    | cons d ds ih => simp only [nextDep, hget, hc, ih]
  intro fuel
  induction fuel with
  | zero => intro part; rfl
  | succ fuel ih =>
    intro part
    simp only [findPathFuel, hd]
    cases part.getLast? with
    | none => rfl
    | some target =>
      simp only
      rw [hloop _ _ part _ (fun dep => ih (part ++ [dep]))]

theorem findPath_congr (g g' : Graph)
    (hlen : g'.TargetByName.length = g.TargetByName.length)
    (hget : ∀ d, mapGet g'.TargetByName d = mapGet g.TargetByName d)
    (hd : ∀ p, (g'.heap p).Deps = (g.heap p).Deps)
    (part : List TargetPtr) (needle : TargetPtr) :
    findPath g' part needle = findPath g part needle := by
  unfold findPath
  rw [hlen, findPathFuel_congr_get g g' hget hd needle]

/-- The result of `checkTarget` depends on the graph through the lookups in
`TargetByName`, the `Deps` and `Name` fields and the map `realDeps` only. -/
theorem checkTarget_congr (g g' : Graph) (T : TargetPtr)
    (hlen : g'.TargetByName.length = g.TargetByName.length)
    (hget : ∀ d, mapGet g'.TargetByName d = mapGet g.TargetByName d)
    (hd : ∀ p, (g'.heap p).Deps = (g.heap p).Deps)
    (hname : ∀ p, (g'.heap p).Name = (g.heap p).Name)
    (hrd : realDepsOf g' (g'.heap T).Reads = realDepsOf g (g.heap T).Reads) :
    (checkTarget g' T).1 = (checkTarget g T).1 := by
  have hstep : directStep g' T = directStep g T := by
    funext st entry
    simp only [directStep, hd, hname]
  have hrem : remainingDeps g' T = remainingDeps g T := by
    simp only [remainingDeps, hrd, hstep]
  have hdir : directEdges g' T = directEdges g T := by
    simp only [directEdges, hrd, hstep]
  have hfp : ∀ d, findPath g' [T] d = findPath g [T] d :=
    fun d => findPath_congr g g' hlen hget hd [T] d
  rw [checkTarget_eq g' T, checkTarget_eq g T]
  simp only [hrem, hdir, undeclaredOf, creditedOf, hfp, hname]

theorem realDeps_fold_filter (g : Graph) (r : StringPtr)
    (hr : mapGet g.TargetByWrite r = none) :
    ∀ (reads : List StringPtr) (m : List (TargetPtr × StringPtr)),
      (reads.filter (fun x => decide (x ≠ r))).foldl (fun realDeps r =>
        match mapGet g.TargetByWrite r with
        | some t => mapSet realDeps t r
        | none => realDeps) m =
      reads.foldl (fun realDeps r =>
        match mapGet g.TargetByWrite r with
        | some t => mapSet realDeps t r
        | none => realDeps) m := by
  intro reads
  induction reads with
  | nil => intro m; rfl
  | cons x reads ih =>
    intro m
    by_cases hx : x = r
    · subst hx
      simp only [List.filter_cons, ne_eq, not_true_eq_false, decide_False,
        Bool.false_eq_true, if_false, List.foldl_cons, hr]
      exact ih m
    · simp only [List.filter_cons, ne_eq, hx, not_false_eq_true, decide_True, if_true,
        List.foldl_cons]
      exact ih _

theorem realDepsOf_unattributed (g : Graph) :
    ∀ (reads : List StringPtr), (∀ r ∈ reads, mapGet g.TargetByWrite r = none) →
      realDepsOf g reads = [] := by
  intro reads
  unfold realDepsOf
  induction reads with
  | nil => intro _; rfl
  | cons x reads ih =>
    intro h
    rw [List.foldl_cons, h x (List.mem_cons_self _ _)]
    exact ih (fun r hr => h r (List.mem_cons_of_mem _ hr))

/-- C11: a read `r` of `T` with no entry in `g.TargetByWrite` generates
nothing: with `r` removed from `T.Reads`, `checkTarget(T)` returns the same
errors and the same edges and appends the same entries to `T.Errors`; and a
target whose reads are all unattributed gets no errors and no edges. -/
theorem checkTarget_unattributed_read (g : Graph) (T : TargetPtr) (r : StringPtr)
    (hr : mapGet g.TargetByWrite r = none) :
    (checkTarget (g.withReads T ((g.heap T).Reads.filter (fun x => decide (x ≠ r)))) T).1 =
        (checkTarget g T).1 ∧
      ((checkTarget (g.withReads T
          ((g.heap T).Reads.filter (fun x => decide (x ≠ r)))) T).2.heap T).Errors =
        ((checkTarget g T).2.heap T).Errors ∧
      ((∀ x ∈ (g.heap T).Reads, mapGet g.TargetByWrite x = none) →
        (checkTarget g T).1.errors = [] ∧ (checkTarget g T).1.edges = []) := by
  have hres : (checkTarget (g.withReads T
      ((g.heap T).Reads.filter (fun x => decide (x ≠ r)))) T).1 = (checkTarget g T).1 := by
    apply checkTarget_congr g (g.withReads T
      ((g.heap T).Reads.filter (fun x => decide (x ≠ r)))) T rfl (fun _ => rfl)
      (fun _ => rfl) (fun _ => rfl)
    show realDepsOf g (if T = T then _ else _) = _
    rw [if_pos rfl]
    exact realDeps_fold_filter g r hr _ []
  refine ⟨hres, ?_, ?_⟩
  · have h1 := (checkTarget_eq (g.withReads T
      ((g.heap T).Reads.filter (fun x => decide (x ≠ r)))) T)
    have h2 := checkTarget_eq g T
    have he1 := checkTarget_errors_eq (g.withReads T
      ((g.heap T).Reads.filter (fun x => decide (x ≠ r)))) T
    have he2 := checkTarget_errors_eq g T
    rw [hres, he2] at he1
    rw [h1, h2, ← he1]
    simp [Graph.appendErrors, Graph.withReads]
  · intro hall
    have hrd := realDepsOf_unattributed g _ hall
    rw [checkTarget_errors_eq, checkTarget_edges_eq]
    simp [remainingDeps, directEdges, hrd, undeclaredOf, creditedOf]

/-- Witness for C11: in `graphRawInput` the read 40 of `A` has no entry in
`TargetByWrite`; `checkTarget(A)` returns the edge `(A, B)` and no error,
with and without that read. -/
theorem checkTarget_unattributed_read_witness :
    mapGet graphRawInput.TargetByWrite 40 = none ∧
      (checkTarget graphRawInput 1).1.edges = [⟨some 1, some 2⟩] ∧
      ((checkTarget (graphRawInput.withReads 1
          ((graphRawInput.heap 1).Reads.filter (fun x => decide (x ≠ 40)))) 1).1 =
          (checkTarget graphRawInput 1).1 ∧
        ((checkTarget (graphRawInput.withReads 1
            ((graphRawInput.heap 1).Reads.filter (fun x => decide (x ≠ 40)))) 1).2.heap 1).Errors =
          ((checkTarget graphRawInput 1).2.heap 1).Errors ∧
        ((∀ x ∈ (graphRawInput.heap 1).Reads, mapGet graphRawInput.TargetByWrite x = none) →
          (checkTarget graphRawInput 1).1.errors = [] ∧
            (checkTarget graphRawInput 1).1.edges = [])) :=
  ⟨by decide, by decide, checkTarget_unattributed_read graphRawInput 1 40 (by decide)⟩

/-! ## Merging the results -/

theorem mergedErrors_eq (rs : List checkTargetResult) :
    ∀ (Es : List Error), mergedErrors Es rs = Es ++ rs.flatMap (fun r => r.errors) := by
  induction rs with
  | nil => intro Es; simp [mergedErrors]
  | cons r rs ih =>
    intro Es
    unfold mergedErrors at ih ⊢
    rw [List.foldl_cons, ih]
    simp

theorem unusedOf_congr (g : Graph) (U U' : List edge) (h : ∀ e, e ∈ U ↔ e ∈ U')
    (T : TargetPtr) (deps : List StringPtr) :
    unusedOf g U T deps = unusedOf g U' T deps := by
  unfold unusedOf
  simp only [h]

theorem unusedErrors_congr (g : Graph) (U U' : List edge) (h : ∀ e, e ∈ U ↔ e ∈ U') :
    ∀ (l : List (StringPtr × TargetPtr)) (E : TargetPtr → List Error),
      unusedErrors g U l E = unusedErrors g U' l E := by
  intro l
  induction l with
  | nil => intro E; rfl
  | cons en l ih =>
    intro E
    simp only [unusedErrors, unusedOf_congr g U U' h, ih]

theorem merge_eq (g : Graph) (rs : List checkTargetResult) :
    rs.foldl mergeResult g =
      g.dyn (fun p => (g.heap p).Errors) (mergedEdges g.UsedEdges rs)
        (mergedErrors g.Errors rs) := by
  have h := merge_fold g (fun p => (g.heap p).Errors) rs g.UsedEdges g.Errors
  rw [dyn_self] at h
  exact h

/-- C13: merging is independent of the arrival order.  For two arrival
orders `rs`, `rs1` of the same results, folding them into the graph as
`checkTargets` does gives the same set `UsedEdges`, the same findings in
`g.Errors` up to order, and the same `Errors` of every target after the
calls of `checkUnusedDeps` of phase 2. -/
theorem merge_order_independent (g : Graph) (rs rs1 : List checkTargetResult)
    (h : rs.Perm rs1) :
    (∀ e, e ∈ (rs.foldl mergeResult g).UsedEdges ↔ e ∈ (rs1.foldl mergeResult g).UsedEdges) ∧
      (rs.foldl mergeResult g).Errors.Perm (rs1.foldl mergeResult g).Errors ∧
      (∀ p, ((g.TargetByName.foldl (fun g entry => checkUnusedDeps g entry.2)
          (rs.foldl mergeResult g)).heap p).Errors =
        ((g.TargetByName.foldl (fun g entry => checkUnusedDeps g entry.2)
          (rs1.foldl mergeResult g)).heap p).Errors) := by
  have hU : ∀ e, e ∈ mergedEdges g.UsedEdges rs ↔ e ∈ mergedEdges g.UsedEdges rs1 := by
    intro e
    rw [mem_mergedEdges, mem_mergedEdges]
    constructor
    · rintro (h1 | ⟨r, hr, h1⟩)
      · exact Or.inl h1
      · exact Or.inr ⟨r, h.mem_iff.1 hr, h1⟩
    · rintro (h1 | ⟨r, hr, h1⟩)
      · exact Or.inl h1
      · exact Or.inr ⟨r, h.mem_iff.2 hr, h1⟩
  rw [merge_eq g rs, merge_eq g rs1]
  refine ⟨hU, ?_, ?_⟩
  · show (mergedErrors g.Errors rs).Perm (mergedErrors g.Errors rs1)
    rw [mergedErrors_eq, mergedErrors_eq]
    exact List.Perm.append_left _ (h.flatMap_right _)
  · intro p
    rw [phase2_fold, phase2_fold]
    show unusedErrors g _ _ _ p = unusedErrors g _ _ _ p
    rw [unusedErrors_congr g _ _ hU]

/-- Witness for C13: the results of `A` and `B` of `graphChain`, merged in
the two possible orders. -/
theorem merge_order_independent_witness :
    [(checkTarget graphChain 1).1, (checkTarget graphChain 2).1].Perm
        [(checkTarget graphChain 2).1, (checkTarget graphChain 1).1] ∧
      ((∀ e, e ∈ ([(checkTarget graphChain 1).1, (checkTarget graphChain 2).1].foldl
            mergeResult graphChain).UsedEdges ↔
          e ∈ ([(checkTarget graphChain 2).1, (checkTarget graphChain 1).1].foldl
            mergeResult graphChain).UsedEdges) ∧
        ([(checkTarget graphChain 1).1, (checkTarget graphChain 2).1].foldl
            mergeResult graphChain).Errors.Perm
          ([(checkTarget graphChain 2).1, (checkTarget graphChain 1).1].foldl
            mergeResult graphChain).Errors ∧
        (∀ p, ((graphChain.TargetByName.foldl (fun g entry => checkUnusedDeps g entry.2)
            ([(checkTarget graphChain 1).1, (checkTarget graphChain 2).1].foldl
              mergeResult graphChain)).heap p).Errors =
          ((graphChain.TargetByName.foldl (fun g entry => checkUnusedDeps g entry.2)
            ([(checkTarget graphChain 2).1, (checkTarget graphChain 1).1].foldl
              mergeResult graphChain)).heap p).Errors)) :=
  ⟨List.Perm.swap _ _ _,
    merge_order_independent graphChain _ _ (List.Perm.swap _ _ _)⟩

/-! ## The edges that `checkTarget` returns -/

theorem mem_addPathEdges (e : edge) :
    ∀ (path : List TargetPtr) (edges : List edge), e ∈ addPathEdges edges path →
      e ∈ edges ∨ ∃ (i : Nat) (a b : TargetPtr), path[i]? = some a ∧
        path[i + 1]? = some b ∧ e = ⟨some a, some b⟩ := by
  intro path
  induction path with
  | nil => intro edges h; exact Or.inl (by simpa [addPathEdges] using h)
  | cons x path ih =>
    intro edges h
    cases path with
    | nil => exact Or.inl (by simpa [addPathEdges] using h)
    | cons y rest =>
      rw [addPathEdges] at h
      rcases ih _ h with h1 | ⟨i, a, b, ha, hb, he⟩
      · rcases (mem_setAdd _ _ _).1 h1 with h2 | h2
        · exact Or.inl h2
        · exact Or.inr ⟨0, x, y, by simp, by simp, h2⟩
      · exact Or.inr ⟨i + 1, a, b, by simpa using ha, by simpa using hb, he⟩

theorem mem_creditedOf (g : Graph) (T : TargetPtr) (e : edge) :
    ∀ (l : List (TargetPtr × StringPtr)) (edges : List edge),
      e ∈ creditedOf g T edges l →
      e ∈ edges ∨ ∃ entry ∈ l, ∃ path, findPath g [T] entry.1 = some path ∧
        ∃ (i : Nat) (a b : TargetPtr), path[i]? = some a ∧ path[i + 1]? = some b ∧
          e = ⟨some a, some b⟩ := by
  intro l
  induction l with
  | nil => intro edges h; exact Or.inl h
  | cons entry l ih =>
    intro edges h
    unfold creditedOf at h
    rw [List.foldl_cons] at h
    cases hp : findPath g [T] entry.1 with
    | none =>
      rw [hp] at h
      rcases ih _ h with h1 | ⟨en, hen, r⟩
      · exact Or.inl h1
      · exact Or.inr ⟨en, List.mem_cons_of_mem _ hen, r⟩
    | some path =>
      rw [hp] at h
      rcases ih _ h with h1 | ⟨en, hen, r⟩
      · rcases mem_addPathEdges e path edges h1 with h2 | h2
        · exact Or.inl h2
        · exact Or.inr ⟨entry, List.mem_cons_self _ _, path, hp, h2⟩
      · exact Or.inr ⟨en, List.mem_cons_of_mem _ hen, r⟩

/-- Where an edge returned by `checkTarget` comes from: the second loop,
for an entry of `realDeps` whose read is declared, or a path found in the
last loop. -/
theorem mem_checkTarget_edges (g : Graph) (T : TargetPtr) (e : edge)
    (h : e ∈ (checkTarget g T).1.edges) :
    (∃ D r, mapGet (realDepsOf g (g.heap T).Reads) D = some r ∧ r ∈ (g.heap T).Deps ∧
        e = ⟨some T, some D⟩) ∨
      ∃ D path, findPath g [T] D = some path ∧
        ∃ (i : Nat) (a b : TargetPtr), path[i]? = some a ∧ path[i + 1]? = some b ∧
          e = ⟨some a, some b⟩ := by
  rw [checkTarget_edges_eq] at h
  rcases mem_creditedOf g T e _ _ h with h1 | ⟨entry, _, path, hp, r⟩
  · unfold directEdges at h1
    rw [mem_direct_edges] at h1
    rcases h1 with h2 | ⟨⟨D, r⟩, hmem, hr, he⟩
    · simp at h2
    · exact Or.inl ⟨D, r, (mem_realDepsOf g _ D r).1 hmem, hr, he⟩
  · exact Or.inr ⟨entry.1, path, hp, r⟩

theorem chain_values (g : Graph) :
    ∀ (s : List TargetPtr) (t : TargetPtr), List.Chain (DeclEdge g) t s →
      ∀ x ∈ s, x ∈ g.TargetByName.map Prod.snd := by
  intro s
  induction s with
  | nil => intro t _ x hx; simp at hx
  | cons y s ih =>
    intro t hchain x hx
    rw [List.chain_cons] at hchain
    rcases List.mem_cons.1 hx with rfl | hin
    · obtain ⟨d, _, hd⟩ := hchain.1
      exact List.mem_map.2 ⟨(d, x), mapGet_mem _ _ _ hd, rfl⟩
    · exact ih y hchain.2 x hin

/-- A path found from `[T]` holds `T`, then values of `TargetByName`, and no
target twice. -/
theorem findPath_path_facts (g : Graph) (T D : TargetPtr) (path : List TargetPtr)
    (hp : findPath g [T] D = some path) :
    path.Nodup ∧ ∀ x ∈ path, x = T ∨ x ∈ g.TargetByName.map Prod.snd := by
  have heq := findPath_eq g [T] D (by simp)
  rw [hp] at heq
  obtain ⟨s, hs, _, hchain, hnd⟩ := findPathFuel_sound g D _ [T] path T rfl heq
  refine ⟨hnd (List.nodup_singleton T), ?_⟩
  intro x hx
  rw [hs] at hx
  rcases List.mem_append.1 hx with h | h
  · exact Or.inl (List.mem_singleton.1 h)
  · exact Or.inr (chain_values g s T hchain x h)

/-- C14: in a well-formed graph whose `UsedEdges` holds only edges with a
non-nil source and destination that are values of `TargetByName`, the same
is true of `UsedEdges` after `checkTargets` (which leaves `TargetByName`
as it is). -/
theorem usedEdges_invariant (g : Graph) (hwf : WellFormed g)
    (hinv : ∀ e ∈ g.UsedEdges, GoodEdge g e) :
    (checkTargets g).TargetByName = g.TargetByName ∧
      ∀ e ∈ (checkTargets g).UsedEdges, GoodEdge (checkTargets g) e := by
  have htbn : (checkTargets g).TargetByName = g.TargetByName := by
    rw [checkTargets_eq]
    rfl
  refine ⟨htbn, ?_⟩
  intro e he
  unfold GoodEdge
  rw [htbn]
  rw [mem_usedEdges_checkTargets] at he
  rcases he with h | ⟨en, hen, h⟩
  · exact hinv e h
  · have hT : en.2 ∈ g.TargetByName.map Prod.snd := List.mem_map.2 ⟨en, hen, rfl⟩
    rcases mem_checkTarget_edges g en.2 e h with ⟨D, r, hkept, _, he⟩ | ⟨D, path, hp, i, a, b, ha, hb, he⟩
    · have hw := (realDepsOf_get g _ D r hkept).2
      exact ⟨en.2, D, he, hT, hwf.2.2.2 (r, D) (mapGet_mem _ _ _ hw)⟩
    · obtain ⟨_, hvals⟩ := findPath_path_facts g en.2 D path hp
      have hmem : ∀ (j : Nat) (x : TargetPtr), path[j]? = some x →
          x ∈ g.TargetByName.map Prod.snd := by
        intro j x hx
        rcases hvals x (List.getElem?_mem hx) with h1 | h1
        · rw [h1]; exact hT
        · exact h1
      exact ⟨a, b, he, hmem i a ha, hmem (i + 1) b hb⟩

/-- Witness for C14 on `graphChain`, whose `UsedEdges` is empty before the
run. -/
theorem usedEdges_invariant_witness :
    WellFormed graphChain ∧
      (checkTargets graphChain).UsedEdges = [⟨some 1, some 2⟩, ⟨some 2, some 3⟩] ∧
      ((checkTargets graphChain).TargetByName = graphChain.TargetByName ∧
        ∀ e ∈ (checkTargets graphChain).UsedEdges, GoodEdge (checkTargets graphChain) e) :=
  ⟨by decide, by decide,
    usedEdges_invariant graphChain (by decide) (fun e he => by simp [graphChain] at he)⟩

/-! ## What the verifier assigns -/

theorem runErrors_extends (g : Graph) (p : TargetPtr) :
    ∀ (l : List (StringPtr × TargetPtr)) (E : TargetPtr → List Error),
      E p <+: runErrors g l E p := by
  intro l
  induction l with
  | nil => intro E; exact List.prefix_refl _
  | cons en l ih =>
    intro E
    rw [runErrors]
    refine List.IsPrefix.trans ?_ (ih _)
    by_cases hp : p = en.2
    · simp only [hp, if_true]
      exact List.prefix_append _ _
    · simp only [hp, if_false]
      exact List.prefix_refl _

theorem unusedErrors_extends (g : Graph) (U : List edge) (p : TargetPtr) :
    ∀ (l : List (StringPtr × TargetPtr)) (E : TargetPtr → List Error),
      E p <+: unusedErrors g U l E p := by
  intro l
  induction l with
  | nil => intro E; exact List.prefix_refl _
  | cons en l ih =>
    intro E
    rw [unusedErrors]
    refine List.IsPrefix.trans ?_ (ih _)
    by_cases hp : p = en.2
    · simp only [hp, if_true]
      exact List.prefix_append _ _
    · simp only [hp, if_false]
      exact List.prefix_refl _

/-- C16 (frame of the verification).  A step of the last loop of
`checkTarget`, in which `findPath` is called, leaves the graph as it is or
makes the one assignment to `target.Errors`; `checkTarget(T)` leaves
`TargetByName`, `TargetByWrite`, `UsedEdges`, the graph-level `Errors` and
every other target as they are, and of `T` changes only `Errors`, by
appending; `checkTargets` leaves `TargetByName`, `TargetByWrite` and the
`Name`, `Deps` and `Reads` of every target as they are, extends the `Errors`
of every target (the list before the run is a prefix of the list after it)
and keeps every edge of `UsedEdges`. -/
theorem verification_frame (g : Graph) :
    (∀ (T : TargetPtr) (rd : List (TargetPtr × StringPtr)) (res : checkTargetResult)
        (entry : TargetPtr × StringPtr),
        (transitiveStep T rd (res, g) entry).2 = g ∨
          ∃ e, (transitiveStep T rd (res, g) entry).2 = g.appendError T e) ∧
      (∀ T : TargetPtr,
        (checkTarget g T).2.TargetByName = g.TargetByName ∧
        (checkTarget g T).2.TargetByWrite = g.TargetByWrite ∧
        (checkTarget g T).2.UsedEdges = g.UsedEdges ∧
        (checkTarget g T).2.Errors = g.Errors ∧
        (∀ p, p ≠ T → (checkTarget g T).2.heap p = g.heap p) ∧
        ((checkTarget g T).2.heap T).Name = (g.heap T).Name ∧
        ((checkTarget g T).2.heap T).Deps = (g.heap T).Deps ∧
        ((checkTarget g T).2.heap T).Reads = (g.heap T).Reads ∧
        (g.heap T).Errors <+: ((checkTarget g T).2.heap T).Errors) ∧
      ((checkTargets g).TargetByName = g.TargetByName ∧
        (checkTargets g).TargetByWrite = g.TargetByWrite ∧
        (∀ p, ((checkTargets g).heap p).Name = (g.heap p).Name ∧
          ((checkTargets g).heap p).Deps = (g.heap p).Deps ∧
          ((checkTargets g).heap p).Reads = (g.heap p).Reads ∧
          (g.heap p).Errors <+: ((checkTargets g).heap p).Errors) ∧
        ∀ e ∈ g.UsedEdges, e ∈ (checkTargets g).UsedEdges) := by
  refine ⟨?_, ?_, ?_⟩
  · intro T rd res entry
    cases hp : findPath g [T] entry.1 with
    | some path =>
      left
      simp only [transitiveStep, hp]
    | none =>
      cases hr : mapGet rd entry.1 with
      | none =>
        left
        simp only [transitiveStep, hp, hr]
      | some read =>
        right
        exact ⟨Error.undeclaredDep (g.heap T).Name read, by simp only [transitiveStep, hp, hr]⟩
  · intro T
    rw [checkTarget_eq]
    refine ⟨rfl, rfl, rfl, rfl, ?_, ?_, ?_, ?_, ?_⟩
    · intro p hp
      simp [Graph.appendErrors, hp]
    · simp [Graph.appendErrors]
    · simp [Graph.appendErrors]
    · simp [Graph.appendErrors]
    · simp [Graph.appendErrors]
  · rw [checkTargets_eq]
    refine ⟨rfl, rfl, ?_, ?_⟩
    · intro p
      refine ⟨rfl, rfl, rfl, ?_⟩
      show (g.heap p).Errors <+: unusedErrors g _ g.TargetByName _ p
      exact List.IsPrefix.trans
        (runErrors_extends g p g.TargetByName (fun p => (g.heap p).Errors))
        (unusedErrors_extends g _ p g.TargetByName _)
    · intro e he
      show e ∈ mergedEdges g.UsedEdges (phase1Results g)
      rw [mem_mergedEdges]
      exact Or.inl he

/-! ## Reads of a target's own output -/

theorem findPath_self (g : Graph) (T : TargetPtr) : findPath g [T] T = some [T] := by
  unfold findPath
  rw [findPathFuel_succ g _ [T] T T rfl]
  simp

/-- C18 as stated fails: in the well-formed graph `graphSelf` the target
`T` reads the file 20 that it wrote and declares that file, and
`checkTarget(T)` returns the self-edge `(T, T)`. -/
theorem self_edge_when_declared :
    WellFormed graphSelf ∧
      20 ∈ (graphSelf.heap 1).Reads ∧ mapGet graphSelf.TargetByWrite 20 = some 1 ∧
      edge.mk (some 1) (some 1) ∈ (checkTarget graphSelf 1).1.edges := by
  decide

/-- C18, amended: for a file `r` that `T` itself wrote (read by `T` or
not), `checkTarget(T)` returns no `undeclaredDep{T.Name, r}`, and the self-edge
`(T, T)` is in the returned edges exactly when `T.Deps` contains the read
kept for `T` in `realDeps`. -/
theorem self_read_no_finding (g : Graph) (T : TargetPtr) (r : StringPtr)
    (hw : mapGet g.TargetByWrite r = some T) :
    Error.undeclaredDep (g.heap T).Name r ∉ (checkTarget g T).1.errors ∧
      (edge.mk (some T) (some T) ∈ (checkTarget g T).1.edges ↔
        ∃ r0, mapGet (realDepsOf g (g.heap T).Reads) T = some r0 ∧
          r0 ∈ (g.heap T).Deps) := by
  refine ⟨checkTarget_no_error_of_path g T T [T] (findPath_self g T) r hw, ?_, ?_⟩
  · intro he
    rcases mem_checkTarget_edges g T _ he with ⟨D, r0, hkept, hdecl, heq⟩ |
      ⟨D, path, hp, i, a, b, ha, hb, heq⟩
    · simp only [edge.mk.injEq, Option.some.injEq, true_and] at heq
      subst heq
      exact ⟨r0, hkept, hdecl⟩
    · simp only [edge.mk.injEq, Option.some.injEq] at heq
      obtain ⟨rfl, rfl⟩ := heq
      obtain ⟨hnd, _⟩ := findPath_path_facts g T D path hp
      have hlt : i + 1 < path.length := (List.getElem?_eq_some.1 hb).1
      exact absurd (ha.trans hb.symm)
        (List.nodup_iff_getElem?_ne_getElem?.1 hnd i (i + 1) (Nat.lt_succ_self i) hlt)
  · rintro ⟨r0, hkept, hdecl⟩
    rw [checkTarget_edges_eq]
    apply creditedOf_subset
    unfold directEdges
    rw [mem_direct_edges]
    exact Or.inr ⟨(T, r0), (mem_realDepsOf g _ T r0).2 hkept, hdecl, rfl⟩

/-- Witness for the amended C18 on `graphSelf`. -/
theorem self_read_no_finding_witness :
    (20 ∈ (graphSelf.heap 1).Reads ∧ mapGet graphSelf.TargetByWrite 20 = some 1) ∧
      (Error.undeclaredDep (graphSelf.heap 1).Name 20 ∉ (checkTarget graphSelf 1).1.errors ∧
        (edge.mk (some 1) (some 1) ∈ (checkTarget graphSelf 1).1.edges ↔
          ∃ r0, mapGet (realDepsOf graphSelf (graphSelf.heap 1).Reads) 1 = some r0 ∧
            r0 ∈ (graphSelf.heap 1).Deps)) :=
  ⟨by decide, self_read_no_finding graphSelf 1 20 (by decide)⟩

/-! ## Running `checkTargets` again -/

theorem checkTargets_dyn (g : Graph) (E : TargetPtr → List Error) (U : List edge)
    (Es : List Error) :
    checkTargets (g.dyn E U Es) =
      g.dyn
        (unusedErrors g (mergedEdges U (phase1Results g)) g.TargetByName
          (runErrors g g.TargetByName E))
        (mergedEdges U (phase1Results g))
        (mergedErrors Es (phase1Results g)) := by
  have h1 := runTargets_fold g U Es g.TargetByName [] E
  rw [List.nil_append] at h1
  unfold checkTargets runTargets
  show List.foldl (fun g entry => checkUnusedDeps g entry.2)
    (List.foldl mergeResult
      (List.foldl (fun (st : List checkTargetResult × Graph) entry =>
        let r := checkTarget st.2 entry.2
        (st.1 ++ [r.1], r.2)) ([], g.dyn E U Es) g.TargetByName).2
      (List.foldl (fun (st : List checkTargetResult × Graph) entry =>
        let r := checkTarget st.2 entry.2
        (st.1 ++ [r.1], r.2)) ([], g.dyn E U Es) g.TargetByName).1)
    g.TargetByName = _
  simp only [h1]
  rw [merge_fold, phase2_fold]
  rfl

theorem foldl_setAdd_absorb {α : Type} [DecidableEq α] :
    ∀ (l s : List α), (∀ x ∈ l, x ∈ s) → l.foldl setAdd s = s := by
  intro l
  induction l with
  | nil => intro s _; rfl
  | cons x l ih =>
    intro s h
    rw [List.foldl_cons]
    have hx : setAdd s x = s := by
      unfold setAdd
      rw [if_pos (h x (List.mem_cons_self _ _))]
    rw [hx]
    exact ih s (fun y hy => h y (List.mem_cons_of_mem _ hy))

theorem mergedEdges_absorb :
    ∀ (rs : List checkTargetResult) (U : List edge),
      (∀ r ∈ rs, ∀ e ∈ r.edges, e ∈ U) → mergedEdges U rs = U := by
  intro rs
  induction rs with
  | nil => intro U _; rfl
  | cons r rs ih =>
    intro U h
    unfold mergedEdges at ih ⊢
    rw [List.foldl_cons, foldl_setAdd_absorb _ _ (h r (List.mem_cons_self _ _))]
    exact ih U (fun r' hr' => h r' (List.mem_cons_of_mem _ hr'))

/-- The set `UsedEdges` is the same after a second run of `checkTargets`. -/
theorem mergedEdges_twice (U : List edge) (rs : List checkTargetResult) :
    mergedEdges (mergedEdges U rs) rs = mergedEdges U rs := by
  apply mergedEdges_absorb
  intro r hr e he
  rw [mem_mergedEdges]
  exact Or.inr ⟨r, hr, he⟩

/-- C15 as stated fails: in `graphUnused` the second run of `checkTargets`
appends `unusedDep{A, E}` to `A.Errors` again, and in `graphUndeclared` it
appends `undeclaredDep{A, 20}` to the graph-level `Errors` again. -/
theorem second_run_appends_again :
    ((checkTargets graphUnused).heap 1).Errors = [Error.unusedDep 11 12] ∧
      ((checkTargets (checkTargets graphUnused)).heap 1).Errors =
        [Error.unusedDep 11 12, Error.unusedDep 11 12] ∧
      (checkTargets graphUndeclared).Errors = [Error.undeclaredDep 11 20] ∧
      (checkTargets (checkTargets graphUndeclared)).Errors =
        [Error.undeclaredDep 11 20, Error.undeclaredDep 11 20] := by
  decide

theorem runErrors_append (g : Graph) (p : TargetPtr) :
    ∀ (l : List (StringPtr × TargetPtr)) (E : TargetPtr → List Error),
      runErrors g l E p = E p ++ runErrors g l (fun _ => []) p := by
  intro l
  induction l with
  | nil => intro E; simp [runErrors]
  | cons en l ih =>
    intro E
    rw [runErrors, runErrors, ih, ih (fun q => if q = en.2 then
      [] ++ (checkTarget g en.2).1.errors else [])]
    by_cases hp : p = en.2
    · simp [hp]
    · simp [hp]

theorem unusedErrors_append (g : Graph) (U : List edge) (p : TargetPtr) :
    ∀ (l : List (StringPtr × TargetPtr)) (E : TargetPtr → List Error),
      unusedErrors g U l E p = E p ++ unusedErrors g U l (fun _ => []) p := by
  intro l
  induction l with
  | nil => intro E; simp [unusedErrors]
  | cons en l ih =>
    intro E
    rw [unusedErrors, unusedErrors, ih, ih (fun q => if q = en.2 then
      [] ++ unusedOf g U en.2 (g.heap en.2).Deps else [])]
    by_cases hp : p = en.2
    · simp [hp]
    · simp [hp]

/-- What a run of `checkTargets` appends, and that a second run with the
same enumeration orders appends the same once more: to the graph-level
`Errors` and to the `Errors` of every target. -/
theorem second_run_appended (g : Graph) :
    (∃ appended : List Error, (checkTargets g).Errors = g.Errors ++ appended ∧
        (checkTargets (checkTargets g)).Errors = (checkTargets g).Errors ++ appended) ∧
      (∀ p, ∃ appended : List Error,
        ((checkTargets g).heap p).Errors = (g.heap p).Errors ++ appended ∧
        ((checkTargets (checkTargets g)).heap p).Errors =
          ((checkTargets g).heap p).Errors ++ appended) := by
  rw [checkTargets_eq g, checkTargets_dyn]
  constructor
  · refine ⟨(phase1Results g).flatMap (fun r => r.errors), ?_, ?_⟩
    · show mergedErrors g.Errors (phase1Results g) = _
      rw [mergedErrors_eq]
    · show mergedErrors (mergedErrors g.Errors (phase1Results g)) (phase1Results g) =
        mergedErrors g.Errors (phase1Results g) ++ _
      rw [mergedErrors_eq (phase1Results g) (mergedErrors g.Errors (phase1Results g))]
  · intro p
    refine ⟨runErrors g g.TargetByName (fun _ => []) p ++
      unusedErrors g (mergedEdges g.UsedEdges (phase1Results g)) g.TargetByName
        (fun _ => []) p, ?_, ?_⟩
    · show unusedErrors g _ g.TargetByName
          (runErrors g g.TargetByName (fun p => (g.heap p).Errors)) p = _
      rw [unusedErrors_append, runErrors_append, List.append_assoc]
    · show unusedErrors g _ g.TargetByName (runErrors g g.TargetByName
          (unusedErrors g _ g.TargetByName
            (runErrors g g.TargetByName (fun p => (g.heap p).Errors)))) p =
        unusedErrors g _ g.TargetByName
          (runErrors g g.TargetByName (fun p => (g.heap p).Errors)) p ++ _
      rw [mergedEdges_twice]
      rw [unusedErrors_append g _ p g.TargetByName (runErrors g g.TargetByName _),
        runErrors_append g p g.TargetByName (unusedErrors g _ g.TargetByName _),
        List.append_assoc]

theorem second_run_sets (g : Graph) :
    (checkTargets (checkTargets g)).UsedEdges = (checkTargets g).UsedEdges ∧
      (∀ e, e ∈ (checkTargets (checkTargets g)).Errors ↔ e ∈ (checkTargets g).Errors) ∧
      (∀ p e, e ∈ ((checkTargets (checkTargets g)).heap p).Errors ↔
        e ∈ ((checkTargets g).heap p).Errors) ∧
      (∀ p, ((checkTargets g).heap p).Errors <+:
        ((checkTargets (checkTargets g)).heap p).Errors) ∧
      (checkTargets g).Errors <+: (checkTargets (checkTargets g)).Errors := by
  rw [checkTargets_eq g, checkTargets_dyn]
  refine ⟨mergedEdges_twice _ _, ?_, ?_, ?_, ?_⟩
  · intro e
    show e ∈ mergedErrors (mergedErrors g.Errors (phase1Results g)) (phase1Results g) ↔
      e ∈ mergedErrors g.Errors (phase1Results g)
    rw [mem_mergedErrors, mem_mergedErrors]
    tauto
  · intro p e
    show e ∈ unusedErrors g _ g.TargetByName (runErrors g g.TargetByName
        (unusedErrors g _ g.TargetByName
          (runErrors g g.TargetByName (fun p => (g.heap p).Errors)))) p ↔
      e ∈ unusedErrors g _ g.TargetByName
        (runErrors g g.TargetByName (fun p => (g.heap p).Errors)) p
    rw [mergedEdges_twice]
    rw [mem_unusedErrors, mem_runErrors, mem_unusedErrors, mem_runErrors]
    tauto
  · intro p
    show unusedErrors g _ g.TargetByName
        (runErrors g g.TargetByName (fun p => (g.heap p).Errors)) p <+:
      unusedErrors g _ g.TargetByName (runErrors g g.TargetByName
        (unusedErrors g _ g.TargetByName
          (runErrors g g.TargetByName (fun p => (g.heap p).Errors)))) p
    exact List.IsPrefix.trans (runErrors_extends g p g.TargetByName _)
      (unusedErrors_extends g _ p g.TargetByName _)
  · show mergedErrors g.Errors (phase1Results g) <+:
      mergedErrors (mergedErrors g.Errors (phase1Results g)) (phase1Results g)
    rw [mergedErrors_eq (phase1Results g) (mergedErrors g.Errors (phase1Results g))]
    exact List.prefix_append _ _

/-- C15, amended: for every graph with a fixed enumeration order (the second
run enumerates every map in the order of the first), running `checkTargets`
twice leaves `UsedEdges` equal to its value after one run and adds no new
finding: the graph-level `Errors` and the `Errors` of every target hold the
same findings after two runs as after one.  The lists themselves are the
lists after one run followed by what that run appended, once more; so the
list after one run is a prefix of the list after two, and the two are equal
exactly when the run appended nothing to that list. -/
theorem second_run_same_findings (g : Graph) :
    (checkTargets (checkTargets g)).UsedEdges = (checkTargets g).UsedEdges ∧
      (∀ e, e ∈ (checkTargets (checkTargets g)).Errors ↔ e ∈ (checkTargets g).Errors) ∧
      (∀ p e, e ∈ ((checkTargets (checkTargets g)).heap p).Errors ↔
        e ∈ ((checkTargets g).heap p).Errors) ∧
      (∀ p, ((checkTargets g).heap p).Errors <+:
        ((checkTargets (checkTargets g)).heap p).Errors) ∧
      (checkTargets g).Errors <+: (checkTargets (checkTargets g)).Errors ∧
      (∃ appended : List Error, (checkTargets g).Errors = g.Errors ++ appended ∧
        (checkTargets (checkTargets g)).Errors = (checkTargets g).Errors ++ appended) ∧
      (∀ p, ∃ appended : List Error,
        ((checkTargets g).heap p).Errors = (g.heap p).Errors ++ appended ∧
        ((checkTargets (checkTargets g)).heap p).Errors =
          ((checkTargets g).heap p).Errors ++ appended) ∧
      ((checkTargets (checkTargets g)).Errors = (checkTargets g).Errors ↔
        (checkTargets g).Errors = g.Errors) ∧
      (∀ p, ((checkTargets (checkTargets g)).heap p).Errors = ((checkTargets g).heap p).Errors ↔
        ((checkTargets g).heap p).Errors = (g.heap p).Errors) := by
  obtain ⟨h1, h2, h3, h4, h5⟩ := second_run_sets g
  obtain ⟨hg, ht⟩ := second_run_appended g
  refine ⟨h1, h2, h3, h4, h5, hg, ht, ?_, ?_⟩
  · obtain ⟨appended, ha, hb⟩ := hg
    rw [hb, ha, List.append_right_eq_self, List.append_right_eq_self]
  · intro p
    obtain ⟨appended, ha, hb⟩ := ht p
    rw [hb, ha, List.append_right_eq_self, List.append_right_eq_self]

/-! ## Enumeration orders -/

theorem mapGet_perm {β : Type} (l l' : List (Nat × β)) (h : l.Perm l')
    (hn : (l'.map Prod.fst).Nodup) (k : Nat) : mapGet l k = mapGet l' k := by
  have hn' : (l.map Prod.fst).Nodup := ((h.map Prod.fst).nodup_iff).2 hn
  cases hl : mapGet l k with
  | some v =>
    exact (mapGet_of_mem l' k v hn (h.mem_iff.1 (mapGet_mem l k v hl))).symm
  | none =>
    cases hl' : mapGet l' k with
    | none => rfl
    | some v =>
      have := mapGet_of_mem l k v hn' (h.mem_iff.2 (mapGet_mem l' k v hl'))
      rw [hl] at this
      exact absurd this (by simp)

theorem mem_unusedOf (g : Graph) (U : List edge) (T : TargetPtr) (deps : List StringPtr)
    (e : Error) :
    e ∈ unusedOf g U T deps ↔
      ∃ dep ∈ deps, edge.mk (some T) (mapGet g.TargetByName dep) ∉ U ∧
        e = Error.unusedDep (g.heap T).Name dep := by
  constructor
  · exact unusedOf_is_unusedDep g U T deps e
  · rintro ⟨dep, hdep, hu, rfl⟩
    unfold unusedOf
    rw [List.mem_filterMap]
    exact ⟨dep, hdep, by simp [hu]⟩

/-- C12 as stated fails.  `graphTwoReads` with the reads of `A` enumerated
as 20, 21 and as 21, 20: in the first order the read kept for `B` is 21,
`A` gets `undeclaredDep{A, 21}` and no edge is used; in the second the read
kept is the declared 20, the edge `(A, B)` is used and `A` gets no such
finding.  `graphDiamond` with the dependencies of `A` enumerated as `B`, `C`
and as `C`, `B`: the path credited is `A, B, D` in the first order and
`A, C, D` in the second, so the used edges and the `unusedDep` findings of
`A` differ. -/
theorem order_changes_result :
    ([20, 21] : List StringPtr).Perm [21, 20] ∧
      ([12, 13] : List StringPtr).Perm [13, 12] ∧
      (Error.undeclaredDep 11 21 ∈ ((checkTargets graphTwoReads).heap 1).Errors ∧
        Error.undeclaredDep 11 21 ∉
          ((checkTargets (graphTwoReads.withReads 1 [21, 20])).heap 1).Errors ∧
        edge.mk (some 1) (some 2) ∉ (checkTargets graphTwoReads).UsedEdges ∧
        edge.mk (some 1) (some 2) ∈
          (checkTargets (graphTwoReads.withReads 1 [21, 20])).UsedEdges) ∧
      (edge.mk (some 1) (some 2) ∈ (checkTargets graphDiamond).UsedEdges ∧
        edge.mk (some 1) (some 2) ∉
          (checkTargets (graphDiamond.withDeps 1 [13, 12])).UsedEdges ∧
        Error.unusedDep 11 12 ∉ ((checkTargets graphDiamond).heap 1).Errors ∧
        Error.unusedDep 11 12 ∈
          ((checkTargets (graphDiamond.withDeps 1 [13, 12])).heap 1).Errors) :=
  ⟨List.Perm.swap _ _ _, List.Perm.swap _ _ _, by decide, by decide⟩

/-- C12, amended: with the enumeration orders of the `Reads` and `Deps` sets
fixed, the result of `checkTargets` does not depend on the order in which
`TargetByName` is enumerated: for every enumeration `names` of the map, the
run yields the same set of used edges, the same findings in the graph-level
`Errors` and the same findings in the `Errors` of every target. -/
theorem targetByName_order_independent (g : Graph) (names : List (StringPtr × TargetPtr))
    (hperm : names.Perm g.TargetByName) (hkeys : (g.TargetByName.map Prod.fst).Nodup) :
    (∀ e, e ∈ (checkTargets (g.withNames names)).UsedEdges ↔
        e ∈ (checkTargets g).UsedEdges) ∧
      (∀ e, e ∈ (checkTargets (g.withNames names)).Errors ↔ e ∈ (checkTargets g).Errors) ∧
      (∀ p e, e ∈ ((checkTargets (g.withNames names)).heap p).Errors ↔
        e ∈ ((checkTargets g).heap p).Errors) := by
  have hget : ∀ d, mapGet (g.withNames names).TargetByName d = mapGet g.TargetByName d :=
    fun d => mapGet_perm names g.TargetByName hperm hkeys d
  have hres : ∀ T, (checkTarget (g.withNames names) T).1 = (checkTarget g T).1 :=
    fun T => checkTarget_congr g (g.withNames names) T hperm.length_eq hget
      (fun _ => rfl) (fun _ => rfl) rfl
  have hU : ∀ e, e ∈ (checkTargets (g.withNames names)).UsedEdges ↔
      e ∈ (checkTargets g).UsedEdges := by
    intro e
    rw [mem_usedEdges_checkTargets, mem_usedEdges_checkTargets]
    simp only [hres]
    constructor
    · rintro (h | ⟨en, hen, h⟩)
      · exact Or.inl h
      · exact Or.inr ⟨en, hperm.mem_iff.1 hen, h⟩
    · rintro (h | ⟨en, hen, h⟩)
      · exact Or.inl h
      · exact Or.inr ⟨en, hperm.mem_iff.2 hen, h⟩
  refine ⟨hU, ?_, ?_⟩
  · intro e
    rw [mem_errors_checkTargets, mem_errors_checkTargets]
    simp only [hres]
    constructor
    · rintro (h | ⟨en, hen, h⟩)
      · exact Or.inl h
      · exact Or.inr ⟨en, hperm.mem_iff.1 hen, h⟩
    · rintro (h | ⟨en, hen, h⟩)
      · exact Or.inl h
      · exact Or.inr ⟨en, hperm.mem_iff.2 hen, h⟩
  · intro p e
    rw [mem_target_errors_checkTargets, mem_target_errors_checkTargets]
    have hvals : p ∈ (g.withNames names).TargetByName.map Prod.snd ↔
        p ∈ g.TargetByName.map Prod.snd := (hperm.map Prod.snd).mem_iff
    have hunused : e ∈ unusedOf (g.withNames names)
          (checkTargets (g.withNames names)).UsedEdges p ((g.withNames names).heap p).Deps ↔
        e ∈ unusedOf g (checkTargets g).UsedEdges p (g.heap p).Deps := by
      rw [mem_unusedOf, mem_unusedOf]
      simp only [hget, hU]
      rfl
    rw [hvals, hres, hunused]
    rfl

/-- Witness for the amended C12: `graphChain` with `TargetByName` enumerated
in the opposite order. -/
theorem targetByName_order_independent_witness :
    ([(13, 3), (12, 2), (11, 1)] : List (StringPtr × TargetPtr)).Perm
        graphChain.TargetByName ∧
      ((∀ e, e ∈ (checkTargets (graphChain.withNames [(13, 3), (12, 2), (11, 1)])).UsedEdges ↔
          e ∈ (checkTargets graphChain).UsedEdges) ∧
        (∀ e, e ∈ (checkTargets (graphChain.withNames [(13, 3), (12, 2), (11, 1)])).Errors ↔
          e ∈ (checkTargets graphChain).Errors) ∧
        (∀ p e,
          e ∈ ((checkTargets (graphChain.withNames [(13, 3), (12, 2), (11, 1)])).heap p).Errors ↔
            e ∈ ((checkTargets graphChain).heap p).Errors)) :=
  ⟨(List.reverse_perm [(11, 1), (12, 2), (13, 3)]),
    targetByName_order_independent graphChain [(13, 3), (12, 2), (11, 1)]
      (List.reverse_perm [(11, 1), (12, 2), (13, 3)]) (by decide)⟩

end Analyze

namespace Termite

/-! ## Properties of `SavingCopy` -/

theorem writeLoop_succ {W : Type} (write : WriteFn W) :
    ∀ (fuel : Nat) (w : W) (todo : List Nat) (n : Nat) (err : Option OsError)
      (x : List Nat × Nat × Option OsError × W),
      writeLoop write fuel w todo n err = some x →
      writeLoop write (fuel + 1) w todo n err = some x := by
  intro fuel
  induction fuel with
  | zero => intro w todo n err x h; simp [writeLoop] at h
  | succ fuel ih =>
    intro w todo n err x h
    unfold writeLoop at h ⊢
    by_cases ht : 0 < todo.length
    · rw [if_pos ht] at h ⊢
      rcases hw : write w todo with ⟨⟨n1, err1⟩, w1⟩
      rw [hw] at h
      simp only at h ⊢
      by_cases he : err1 ≠ none
      · rw [if_pos he] at h ⊢
        exact h
      · rw [if_neg he] at h ⊢
        by_cases hn : todo.length < n1
        · rw [if_pos hn] at h
          exact absurd h (by simp)
        · rw [if_neg hn] at h ⊢
          exact ih _ _ _ _ _ h
    · rw [if_neg ht] at h ⊢
      exact h

theorem copyLoop_succ {R W : Type} (read : ReadFn R) (write : WriteFn W) :
    ∀ (fuel : Nat) (r : R) (w : W) (buf : List Nat) (total : Nat) (out : CopyOutcome R W),
      copyLoop read write fuel r w buf total = some out →
      copyLoop read write (fuel + 1) r w buf total = some out := by
  intro fuel
  induction fuel with
  | zero => intro r w buf total out h; simp [copyLoop] at h
  | succ fuel ih =>
    intro r w buf total out h
    unfold copyLoop at h ⊢
    rcases hr : read r buf.length with ⟨⟨data, err⟩, r1⟩
    rw [hr] at h
    simp only at h ⊢
    by_cases hb : buf.length < data.length
    · rw [if_pos hb] at h
      exact absurd h (by simp)
    · rw [if_neg hb] at h ⊢
      cases hw : writeLoop write fuel w ((data ++ buf.drop data.length).take data.length)
          data.length err with
      | none =>
        rw [hw] at h
        exact absurd h (by simp)
      | some x =>
        rw [hw] at h
        rw [writeLoop_succ write fuel _ _ _ _ x hw]
        obtain ⟨todo2, n2, err2, w2⟩ := x
        simp only at h ⊢
        by_cases h1 : 0 < todo2.length
        · rw [if_pos h1] at h ⊢
          exact h
        · rw [if_neg h1] at h ⊢
          by_cases h2 : err2 = some OsError.EOF ∨ n2 = 0
          · rw [if_pos h2] at h ⊢
            exact h
          · rw [if_neg h2] at h ⊢
            by_cases h3 : err2 ≠ none
            · rw [if_pos h3] at h ⊢
              exact h
            · rw [if_neg h3] at h ⊢
              exact ih _ _ _ _ _ h

/-- A result of `SavingCopy` does not depend on the bound: a larger bound
gives the same result. -/
theorem SavingCopy_fuel {R W : Type} (read : ReadFn R) (write : WriteFn W) (w : W) (r : R)
    (bufSize fuel : Nat) (out : CopyOutcome R W)
    (h : SavingCopy fuel read write w r bufSize = some out) :
    ∀ k, SavingCopy (fuel + k) read write w r bufSize = some out := by
  intro k
  induction k with
  | zero => exact h
  | succ k ih => exact copyLoop_succ read write _ _ _ _ _ out ih

/-- Two runs in which the code does what is expected of it: one chunk that
is smaller than the buffer is returned as it was read, and a total that
reaches `bufSize` gives `(nil, nil)`; the writer receives all bytes. -/
theorem savingCopy_examples :
    (∃ out, SavingCopy 5 chunkRead acceptAll [] [[1, 2, 3]] 4 = some out ∧
        out.content = some [1, 2, 3] ∧ out.err = none ∧ out.writer = [1, 2, 3]) ∧
      (∃ out, SavingCopy 5 chunkRead acceptAll [] [[1, 2], [3]] 3 = some out ∧
        out.content = none ∧ out.err = none ∧ out.writer = [1, 2, 3]) :=
  ⟨⟨⟨some [1, 2, 3], none, [], [1, 2, 3]⟩, rfl, rfl, rfl, rfl⟩,
    ⟨⟨none, none, [], [1, 2, 3]⟩, rfl, rfl, rfl, rfl⟩⟩

/-- C19, evaluated where the code departs from it: the reader delivers the
chunks `[1, 2]` and `[3]` and then `os.EOF`, the writer accepts all bytes and
`bufSize = 4` exceeds the total 3.  `SavingCopy` returns `(buf[:3], nil)` with
`buf[:3] = [3, 2, 0]`: the second `Read` stored its chunk at the start of
`buf` again.  The writer received `[1, 2, 3]`. -/
theorem savingCopy_overwrites_buffer :
    ∃ out, (∀ k, SavingCopy (5 + k) chunkRead acceptAll [] [[1, 2], [3]] 4 = some out) ∧
      out.content = some [3, 2, 0] ∧ out.err = none ∧ out.writer = [1, 2, 3] ∧
      out.content ≠ some ([1, 2] ++ [3]) :=
  ⟨⟨some [3, 2, 0], none, [], [1, 2, 3]⟩,
    SavingCopy_fuel chunkRead acceptAll [] [[1, 2], [3]] 4 5 _ rfl, rfl, rfl, rfl, by decide⟩

end Termite
